import Mathlib

/-!
# png2rle: quantizer, memory stream, format converter and RLE encoder

A shallow embedding of `src/main.c`.

Conventions of the embedding

* A byte is a `Nat` (the value of an `unsigned char`), a memory block is a `List Nat`.
* `unsigned int` arithmetic is arithmetic modulo `2 ^ 32`, `unsigned short` modulo `2 ^ 16`.
* `int` values are `Int`.  A signed operation whose result leaves the `int` range, a
  `memcpy` with a negative length and an access outside a block are undefined in C: the
  function that performs it yields `none`.
* `malloc` and `realloc` succeed whenever the requested size is representable; the bytes
  they leave indeterminate are `0` here and no theorem depends on their value.
* A C function that returns a pointer which may be null returns an inner `Option`.
-/

namespace Png2Rle

/-! ## Machine integers -/

/-- Value of an `int` converted to `unsigned int`. -/
def to_unsigned (x : Int) : Nat := (x % 4294967296).toNat

/-- Value of an `unsigned int` converted to `int` (two's complement). -/
def to_int (u : Nat) : Int :=
  if u % 4294967296 < 2147483648 then ((u % 4294967296 : Nat) : Int)
  else ((u % 4294967296 : Nat) : Int) - 4294967296

/-- The `int` range. -/
def in_int (x : Int) : Prop := -2147483648 ≤ x ∧ x ≤ 2147483647

instance (x : Int) : Decidable (in_int x) := by
  unfold in_int
  exact inferInstance

/-! ## Quantizer (lines 27-32) -/

/-- The macro `to565(r,g,b)`. -/
def to565 (r g b : Nat) : Nat :=
  (((r >>> 3) <<< 11) ||| ((g >>> 2) <<< 5)) ||| (b >>> 3)

/-- The macro `from565_r(x)`. -/
def from565_r (x : Nat) : Nat := ((x >>> 11) &&& 0x1f) * 255 / 31

/-- The macro `from565_g(x)`. -/
def from565_g (x : Nat) : Nat := ((x >>> 5) &&& 0x3f) * 255 / 63

/-- The macro `from565_b(x)`. -/
def from565_b (x : Nat) : Nat := (x &&& 0x1f) * 255 / 31

/-! ## Memory blocks -/

/-- Bytes `memcpy` reads from block `p` at displacement `off` for length `n`;
`none` when the length is negative or the range leaves the block. -/
def load_bytes (p : List Nat) (off n : Int) : Option (List Nat) :=
  if 0 ≤ off ∧ 0 ≤ n ∧ off + n ≤ (p.length : Int) then
    some ((p.drop off.toNat).take n.toNat)
  else none

/-- Block `p` after `memcpy` wrote `data` at displacement `off`;
`none` when the range leaves the block. -/
def store_bytes (p : List Nat) (off : Int) (data : List Nat) : Option (List Nat) :=
  if 0 ≤ off ∧ off + (data.length : Int) ≤ (p.length : Int) then
    some (p.take off.toNat ++ data ++ p.drop (off.toNat + data.length))
  else none

/-- Library `realloc(p, n)` with the `int` argument converted to `size_t`: a negative `n`
becomes a size no allocator grants and the result is null (`none`); otherwise the block
keeps its first bytes and has length `n`. -/
def realloc (p : List Nat) (n : Int) : Option (List Nat) :=
  if n < 0 then none
  else some (p.take n.toNat ++ List.replicate (n.toNat - p.length) 0)

/-! ## Memory stream (lines 110-178) -/

/-- The struct `memblk`. -/
structure memblk where
  start : List Nat
  size : Int
  offset : Int
deriving DecidableEq

/-- Function `memopen`. -/
def memopen (mem : List Nat) (size : Int) : memblk :=
  { start := mem, size := size, offset := 0 }

/-- The local `read_len` of `memread` as computed by lines 127-133. -/
def memread_len (f : memblk) (size : Int) : Int :=
  if size + f.offset > f.size then f.size - (f.offset + size) else size

/-- Function `memread`: the returned `int`, the bytes copied into the caller's buffer and
the stream afterwards. -/
def memread (f : memblk) (size : Int) : Option (Int × List Nat × memblk) :=
  if f.offset ≥ f.size then some (0, [], f)
  else if ¬ (in_int (size + f.offset) ∧ in_int (memread_len f size)
      ∧ in_int (f.offset + memread_len f size)) then none
  else
    match load_bytes f.start f.offset (memread_len f size) with
    | none => none
    | some data =>
      some (memread_len f size, data, { f with offset := f.offset + memread_len f size })

/-- Function `memwrite`: the returned `int` and the stream afterwards. -/
def memwrite (f : memblk) (buffer : List Nat) (size : Int) : Option (Int × memblk) :=
  if ¬ in_int (size + f.size) then none
  else
    match realloc f.start (size + f.size) with
    | none => some (-1, { f with start := [] })
    | some p =>
      if size < 0 ∨ (buffer.length : Int) < size then none
      else
        match store_bytes p f.offset (buffer.take size.toNat) with
        | none => none
        | some q =>
          if in_int (f.offset + size) then
            some (size, { start := q, size := f.size + size, offset := f.offset + size })
          else none

/-- Function `memseek`; the parameter `offset` is an `unsigned int`.  The three valid modes
reach the end of the function without a `return`, so no value is returned (`none`). -/
def memseek (f : memblk) (offset : Nat) (whence : Int) : Option Int × memblk :=
  if whence = 0 then
    (none, { f with offset := to_int offset })
  else if whence = 1 then
    (none, { f with offset := to_int (to_unsigned f.offset + offset) })
  else if whence = 2 then
    if offset % 4294967296 > 0 then
      (none, { f with offset := to_int (to_unsigned f.size + offset),
                      size := to_int (to_unsigned f.size + offset) })
    else
      (none, { f with offset := to_int (to_unsigned f.size + offset) })
  else (some (-1), f)

/-! ## Images (lines 182-256) -/

/-- The enum `img_format`. -/
inductive img_format where
  | IMG_RGB888
  | IMG_RGBA8888
  | IMG_RGB565
  | IMG_RLE565
  | IMG_UNKOWN
deriving DecidableEq

/-- The struct `image`. -/
structure image where
  mem : List Nat
  height : Nat
  width : Nat
  format : img_format
  error : Nat
  size : Nat
deriving DecidableEq

/-- Function `new_image`; the field `size` is left unset by the source (0 here). -/
def new_image (width height : Nat) (format : img_format) : image :=
  { mem :=
      match format with
      | .IMG_RGBA8888 => List.replicate (width * height * 4 % 4294967296) 0
      | .IMG_RGB888 => List.replicate (width * height * 3 % 4294967296) 0
      | .IMG_RGB565 => List.replicate (width * height * 2 % 4294967296) 0
      | _ => [],
    height := height, width := width, format := format, error := 0, size := 0 }

/-- The body of the `for` loop of `convert_to_rgb`, run for `k` more iterations from index `j`
on the output block `omem`. -/
def convert_to_rgb_loop (inmem : List Nat) : Nat → Nat → List Nat → Option (List Nat)
  | 0, _, omem => some omem
  | k + 1, j, omem =>
    if ¬ (in_int ((j : Int) * 4 + 2) ∧ in_int ((j : Int) + 1)) then none
    else
      match inmem.get? (j * 4 + 0), inmem.get? (j * 4 + 1), inmem.get? (j * 4 + 2) with
      | some r, some g, some b =>
        if j * 3 + 2 < omem.length then
          convert_to_rgb_loop inmem k (j + 1)
            (((omem.set (j * 3 + 0) r).set (j * 3 + 1) g).set (j * 3 + 2) b)
        else none
      | _, _, _ => none

/-- Function `convert_to_rgb`. -/
def convert_to_rgb (inp : image) : Option (Option image) :=
  if inp.format ≠ .IMG_RGBA8888 then some none
  else
    let o := new_image inp.width inp.height .IMG_RGB888
    match convert_to_rgb_loop inp.mem (inp.width * inp.height % 4294967296) 0 o.mem with
    | none => none
    | some omem => some (some { o with mem := omem })

/-- Function `memopen_image`. -/
def memopen_image (i : image) : Option memblk :=
  match i.format with
  | .IMG_RGBA8888 => some (memopen i.mem (to_int (i.height * i.width * 4)))
  | .IMG_RGB888 => some (memopen i.mem (to_int (i.height * i.width * 3)))
  | .IMG_RGB565 => some (memopen i.mem (to_int (i.height * i.width * 2)))
  | _ => none

/-! ## RLE encoder (lines 258-295) -/

/-- Memory image of an `unsigned short` on the little-endian host the source assumes. -/
def le16 (x : Nat) : List Nat := [x % 256, x / 256 % 256]

/-- The flush sequence `memwrite(outfd, &count, 2); memwrite(outfd, &last, 2);`
(lines 276-277 and 285-286); the values `memwrite` returns are ignored by the source. -/
def write_record (outfd : memblk) (count last : Nat) : Option memblk :=
  match memwrite outfd (le16 count) 2 with
  | none => none
  | some (_, o1) =>
    match memwrite o1 (le16 last) 2 with
    | none => none
    | some (_, o2) => some o2

/-- The `while` loop of `convert_to_rle` with a step budget; the state is
`(m, outfd, last, count, total)`.  `none` is undefined behaviour or an exhausted budget;
by `convert_to_rle_loop_budget` a budget above the number of unread bytes is never
exhausted. -/
def convert_to_rle_loop :
    Nat → memblk → memblk → Nat → Nat → Nat → Option (memblk × memblk × Nat × Nat × Nat)
  | 0, _, _, _, _, _ => none
  | fuel + 1, m, outfd, last, count, total =>
    match memread m 3 with
    | none => none
    | some (r, inb, m1) =>
      if r = 3 then
        if count ≠ 0 then
          if to565 (inb.getD 0 0) (inb.getD 1 0) (inb.getD 2 0) % 65536 = last
              ∧ count ≠ 65535 then
            convert_to_rle_loop fuel m1 outfd last ((count + 1) % 65536) total
          else
            match write_record outfd count last with
            | none => none
            | some o2 =>
              convert_to_rle_loop fuel m1 o2
                (to565 (inb.getD 0 0) (inb.getD 1 0) (inb.getD 2 0) % 65536) 1
                ((total + count) % 4294967296)
        else
          convert_to_rle_loop fuel m1 outfd
            (to565 (inb.getD 0 0) (inb.getD 1 0) (inb.getD 2 0) % 65536) 1 total
      else some (m1, outfd, last, count, total)

/-- Function `convert_to_rle`.  The locals `last` and `total` start at 0 (`last` is
uninitialised in the source and never read before it is assigned); the fields of the
result that the source leaves unset are 0.  The budget handed to the loop is one more
than the byte size of the input stream. -/
def convert_to_rle (ini : image) : Option (Option image) :=
  if ini.format ≠ .IMG_RGB888 then some none
  else
    match memopen_image ini with
    | none => none
    | some m =>
      match convert_to_rle_loop (m.size.toNat + 1) m (memopen [] 0) 0 0 0 with
      | none => none
      | some (_, outfd, last, count, _) =>
        match (if count ≠ 0 then write_record outfd count last else some outfd) with
        | none => none
        | some o =>
          some (some { mem := o.start, height := 0, width := 0, format := .IMG_RLE565,
                       error := 0, size := to_unsigned o.size })

/-! ## The loop with its reads recorded, and the pipeline of `main` -/

/-- The `while` loop of `convert_to_rle` (lines 269-283) together with the list of its
reads: the same computation as `convert_to_rle_loop`, the calls of `memwrite` and their
failures included, which also records for every iteration the stream handed to
`memread(m, in, 3)`, the value returned, and the value the iteration computes for the
counter before it is stored in the `unsigned short`.  By `convert_to_rle_traced_fst` its
first component is `convert_to_rle_loop`. -/
def convert_to_rle_traced :
    Nat → memblk → memblk → Nat → Nat → Nat →
      Option ((memblk × memblk × Nat × Nat × Nat) × List (memblk × Int × Nat))
  | 0, _, _, _, _, _ => none
  | fuel + 1, m, outfd, last, count, total =>
    match memread m 3 with
    | none => none
    | some (r, inb, m1) =>
      if r = 3 then
        if count ≠ 0 then
          if to565 (inb.getD 0 0) (inb.getD 1 0) (inb.getD 2 0) % 65536 = last
              ∧ count ≠ 65535 then
            (convert_to_rle_traced fuel m1 outfd last ((count + 1) % 65536) total).map
              (fun x => (x.1, (m, r, count + 1) :: x.2))
          else
            match write_record outfd count last with
            | none => none
            | some o2 =>
              (convert_to_rle_traced fuel m1 o2
                (to565 (inb.getD 0 0) (inb.getD 1 0) (inb.getD 2 0) % 65536) 1
                ((total + count) % 4294967296)).map
                (fun x => (x.1, (m, r, 1) :: x.2))
        else
          (convert_to_rle_traced fuel m1 outfd
            (to565 (inb.getD 0 0) (inb.getD 1 0) (inb.getD 2 0) % 65536) 1 total).map
            (fun x => (x.1, (m, r, 1) :: x.2))
      else some ((m1, outfd, last, count, total), [(m, r, count)])

/-- The pipeline of line 305, `convert_to_rle(convert_to_rgb(...))`; `convert_to_rle`
dereferences its argument, so a null result of `convert_to_rgb` makes the call undefined. -/
def rgba_to_rle (inp : image) : Option (Option image) :=
  match convert_to_rgb inp with
  | none => none
  | some none => none
  | some (some rgb) => convert_to_rle rgb

/-! ## The RLE565 record format (spec section 6) -/

/-- The records held by an RLE565 buffer: consecutive 4-byte groups read as a
little-endian run length followed by a little-endian colour code. -/
def rle_records : List Nat → List (Nat × Nat)
  | b0 :: b1 :: b2 :: b3 :: rest => (b0 + 256 * b1, b2 + 256 * b3) :: rle_records rest
  | _ => []

/-- The bytes of a list of records, 4 per record. -/
def record_bytes : List (Nat × Nat) → List Nat
  | [] => []
  | (n, c) :: rs => le16 n ++ le16 c ++ record_bytes rs

/-- A record the format admits: run length in 1..65535 and a 16-bit colour code. -/
def valid_record (rec : Nat × Nat) : Prop :=
  1 ≤ rec.1 ∧ rec.1 ≤ 65535 ∧ rec.2 ≤ 65535

/-! ## Notions the claims are stated with -/

/-- The colour codes of the consecutive 3-byte pixels of an RGB888 buffer, as line 270
stores them in the `unsigned short color`. -/
def quantized : List Nat → List Nat
  | r :: g :: b :: rest => (to565 r g b % 65536) :: quantized rest
  | _ => []

/-- The run accumulation of lines 270-288 on a list of colour codes, from the state
`(last, count)`: the records flushed, the final flush of lines 284-288 included. -/
def rle_runs : List Nat → Nat → Nat → List (Nat × Nat)
  | [], last, count => if count ≠ 0 then [(count, last)] else []
  | c :: cs, last, count =>
    if count ≠ 0 then
      if c = last ∧ count ≠ 65535 then rle_runs cs last ((count + 1) % 65536)
      else (count, last) :: rle_runs cs c 1
    else rle_runs cs c 1

/-- No two adjacent colour codes of the list are equal. -/
def adjacent_differ : List Nat → Prop
  | a :: b :: rest => a ≠ b ∧ adjacent_differ (b :: rest)
  | _ => True

/-- An output stream in the state the encoder keeps it: the block is a whole number of
admissible records, `size` is its length, within the `int` range, and the cursor is at
the end. -/
def out_ok (o : memblk) : Prop :=
  ∃ rs, o.start = record_bytes rs ∧ (∀ rec ∈ rs, valid_record rec)
    ∧ o.size = (o.start.length : Int) ∧ o.offset = o.size ∧ o.size ≤ 2147483647

/-- The RGB bytes of the consecutive 4-byte pixels of an RGBA8888 buffer. -/
def strip_alpha : List Nat → List Nat
  | r :: g :: b :: _ :: rest => r :: g :: b :: strip_alpha rest
  | _ => []

/-- Successive `memwrite` calls, one per chunk, each passing the chunk and its length;
`none` as soon as one call is undefined. -/
def memwrite_all : memblk → List (List Nat) → Option memblk
  | f, [] => some f
  | f, d :: ds =>
    match memwrite f d (d.length : Int) with
    | none => none
    | some (_, f1) => memwrite_all f1 ds

/-- The colour codes a list of records stands for: each record's code repeated run-length
times, in order. -/
def rle_expand : List (Nat × Nat) → List Nat
  | [] => []
  | (n, c) :: rs => List.replicate n c ++ rle_expand rs

/-- The values `to565(r,g,b)` of the consecutive 3-byte pixels of an RGB888 buffer. -/
def pixel_codes : List Nat → List Nat
  | r :: g :: b :: rest => to565 r g b :: pixel_codes rest
  | _ => []

/-- Whenever two consecutive records carry the same colour code, the earlier of the two has
run length 65535. -/
def runs_maximal : List (Nat × Nat) → Prop
  | a :: b :: rest => (a.2 = b.2 → a.1 = 65535) ∧ runs_maximal (b :: rest)
  | _ => True

/-- The run in progress in the state `(last, count)`, as the record its flush would write. -/
def pending (last count : Nat) : List (Nat × Nat) :=
  if count ≠ 0 then [(count, last)] else []

/-- An output stream holding exactly the admissible records `rs`, with `size` its length,
within the `int` range, and the cursor at the end. -/
def out_holds (o : memblk) (rs : List (Nat × Nat)) : Prop :=
  o.start = record_bytes rs ∧ (∀ rec ∈ rs, valid_record rec)
    ∧ o.size = (o.start.length : Int) ∧ o.offset = o.size ∧ o.size ≤ 2147483647

/-- One call on a stream: `memread` of `count` bytes, `memwrite` of `data` with its length,
or `memseek` with the `unsigned int` argument `delta` and mode `whence`. -/
inductive stream_op where
  | read (count : Int)
  | write (data : List Nat)
  | seek (delta : Nat) (whence : Int)

/-- The stream after one call; `none` when the call is undefined. -/
def apply_op (f : memblk) : stream_op → Option memblk
  | .read count => (memread f count).map (fun r => r.2.2)
  | .write data => (memwrite f data (data.length : Int)).map (fun r => r.2)
  | .seek delta whence => some (memseek f delta whence).2

/-- The stream after a sequence of calls; `none` when one of them is undefined. -/
def run_ops : memblk → List stream_op → Option memblk
  | f, [] => some f
  | f, op :: ops =>
    match apply_op f op with
    | none => none
    | some g => run_ops g ops

/-- The position a valid seek asks for (`delta`, `offset + delta` or `size + delta`) is at
most `2 ^ 31 - 1`. -/
def seek_in_range (f : memblk) (delta : Nat) (whence : Int) : Bool :=
  if whence = 0 then decide ((delta : Int) ≤ 2147483647)
  else if whence = 1 then decide (f.offset + (delta : Int) ≤ 2147483647)
  else if whence = 2 then decide (f.size + (delta : Int) ≤ 2147483647)
  else true

/-- Every seek of the sequence, in the state it is issued in, is `seek_in_range`. -/
def seeks_in_range : memblk → List stream_op → Bool
  | _, [] => true
  | f, op :: ops =>
    (match op with
      | .seek delta whence => seek_in_range f delta whence
      | _ => true)
    && (match apply_op f op with
      | none => true
      | some g => seeks_in_range g ops)

/-- The number of low bits `to565` drops from the byte at index `i` of an RGB888 buffer. -/
def shift3 (i : Nat) : Nat := if i % 3 = 1 then 2 else 3

/-- The number of low bits dropped from the colour byte at index `i` of an RGBA8888 buffer. -/
def shift4 (i : Nat) : Nat := if i % 4 = 1 then 2 else 3

/-- Two RGB888 buffers of one length whose bytes agree on the bits `to565` keeps. -/
def codes_agree (x y : List Nat) : Prop :=
  x.length = y.length
    ∧ ∀ i, i < x.length → x.getD i 0 >>> shift3 i = y.getD i 0 >>> shift3 i

/-- Two RGBA8888 buffers of one length whose colour bytes agree on the bits `to565` keeps;
the alpha bytes are unconstrained. -/
def rgba_agree (x y : List Nat) : Prop :=
  x.length = y.length
    ∧ ∀ i, i < x.length → i % 4 ≠ 3 → x.getD i 0 >>> shift4 i = y.getD i 0 >>> shift4 i

/-! ## Concrete inputs -/

/-- A 2 x 2 RGB888 image: red, near-red, blue, blue. -/
def sample_rgb : image :=
  { mem := [255, 0, 0, 255, 1, 2, 0, 0, 255, 0, 0, 255], height := 2, width := 2,
    format := .IMG_RGB888, error := 0, size := 0 }

/-- The RLE565 image the 2 x 2 sample encodes to: records `(2, 0xF800)` and `(2, 0x001F)`. -/
def sample_rle : image :=
  { mem := [2, 0, 0, 248, 2, 0, 31, 0], height := 0, width := 0, format := .IMG_RLE565,
    error := 0, size := 8 }

/-- A 0 x 0 RGB888 image. -/
def empty_rgb : image :=
  { mem := [], height := 0, width := 0, format := .IMG_RGB888, error := 0, size := 0 }

/-- The image `convert_to_rle` builds over an empty output stream. -/
def empty_rle : image :=
  { mem := [], height := 0, width := 0, format := .IMG_RLE565, error := 0, size := 0 }

/-- A 1 x 70000 RGB888 image, every byte 7. -/
def flat_rgb : image :=
  { mem := List.replicate (3 * 70000) 7, height := 1, width := 70000,
    format := .IMG_RGB888, error := 0, size := 0 }

/-- A 1 x 4 RGB888 image with pixels red, blue, red, blue. -/
def abab_rgb : image :=
  { mem := [255, 0, 0, 0, 0, 255, 255, 0, 0, 0, 0, 255], height := 1, width := 4,
    format := .IMG_RGB888, error := 0, size := 0 }

/-- A 2 x 1 RGBA8888 image. -/
def sample_rgba : image :=
  { mem := [10, 20, 30, 255, 40, 50, 60, 128], height := 1, width := 2,
    format := .IMG_RGBA8888, error := 0, size := 0 }

/-- A stream of 5 bytes with the cursor at 3. -/
def short_stream : memblk := { start := [1, 2, 3, 4, 5], size := 5, offset := 3 }

/-- A 65536 x 65536 RGB888 image, every byte 0; its buffer holds `3 * 2 ^ 32` bytes. -/
def huge_rgb : image :=
  { mem := List.replicate (3 * (65536 * 65536)) 0, height := 65536, width := 65536,
    format := .IMG_RGB888, error := 0, size := 0 }

/-- An RGB888 buffer of `n` pixels alternating between white and black. -/
def alternating : Nat → List Nat
  | 0 => []
  | n + 1 =>
    (if n % 2 = 0 then [255, 255, 255] else [0, 0, 0]) ++ alternating n

/-- A 65536 x 65536 RGB888 image whose pixels alternate between white and black. -/
def huge_alternating_rgb : image :=
  { mem := alternating (65536 * 65536), height := 65536, width := 65536,
    format := .IMG_RGB888, error := 0, size := 0 }

/-- A 65536 x 65536 RGBA8888 image, every byte 0; its buffer holds `4 * 2 ^ 32` bytes. -/
def huge_rgba : image :=
  { mem := List.replicate (4 * (65536 * 65536)) 0, height := 65536, width := 65536,
    format := .IMG_RGBA8888, error := 0, size := 0 }

/-- A sequence of calls: write two bytes, seek to 1, read one byte, seek 3 past the end,
seek with an invalid mode. -/
def sample_ops : List stream_op :=
  [.write [1, 2], .seek 1 0, .read 1, .seek 3 2, .seek 7 5]

/-- A 2 x 1 RGBA8888 image that differs from `sample_rgba` in the alpha bytes and in the low
3, 2 and 3 bits of the colour bytes only. -/
def sample_rgba_low_bits : image :=
  { mem := [15, 23, 25, 0, 41, 48, 63, 7], height := 1, width := 2,
    format := .IMG_RGBA8888, error := 0, size := 0 }

/-- A 536870913 x 1 RGB888 image (`2 ^ 29 + 1` pixels) whose pixels alternate between white
and black; its buffer holds 1610612739 bytes, which is below `2 ^ 31`. -/
def long_alternating_rgb : image :=
  { mem := alternating 536870913, height := 1, width := 536870913,
    format := .IMG_RGB888, error := 0, size := 0 }

/-! ## Stream lemmas -/

theorem memread_pixel (pre rest : List Nat) (r g b : Nat) (S : Int)
    (hS : S = ((pre ++ r :: g :: b :: rest).length : Int)) (hmax : S ≤ 2147483647) :
    memread { start := pre ++ r :: g :: b :: rest, size := S, offset := (pre.length : Int) } 3
      = some (3, [r, g, b],
          { start := pre ++ r :: g :: b :: rest, size := S,
            offset := ((pre ++ [r, g, b]).length : Int) }) := by
  have hlen : S = (pre.length : Int) + 3 + (rest.length : Int) := by
    rw [hS]; simp only [List.length_append, List.length_cons]; push_cast; ring
  have hl : memread_len
      { start := pre ++ r :: g :: b :: rest, size := S, offset := (pre.length : Int) } 3
        = 3 := by
    unfold memread_len
    simp only
    rw [if_neg]
    omega
  unfold memread
  simp only [hl]
  rw [if_neg (by simp only [ge_iff_le, not_le]; omega)]
  rw [if_neg (by
    simp only [in_int, not_not]
    omega)]
  have hload : load_bytes (pre ++ r :: g :: b :: rest) (pre.length : Int) 3 = some [r, g, b] := by
    unfold load_bytes
    rw [if_pos (by
      refine ⟨by omega, by omega, ?_⟩
      rw [← hS]; omega)]
    simp
  rw [hload]
  simp only [List.length_append, List.length_cons, List.length_nil]
  push_cast
  rfl

theorem memread_end (p : List Nat) (S o : Int) (h : S ≤ o) :
    memread { start := p, size := S, offset := o } 3
      = some (0, [], { start := p, size := S, offset := o }) := by
  unfold memread
  rw [if_pos (by simpa using h)]

theorem memwrite_append (p data : List Nat) (S : Int) (n : Nat)
    (hS : S = (p.length : Int)) (hn : data.length = n) (hmax : S + n ≤ 2147483647) :
    memwrite { start := p, size := S, offset := S } data (n : Int)
      = some ((n : Int), { start := p ++ data, size := S + n, offset := S + n }) := by
  have hS0 : 0 ≤ S := by omega
  unfold memwrite
  simp only
  rw [if_neg (by simp only [in_int, not_not]; omega)]
  have hre : realloc p ((n : Int) + S) = some (p ++ List.replicate n 0) := by
    unfold realloc
    rw [if_neg (by omega)]
    have h1 : ((n : Int) + S).toNat = p.length + n := by omega
    rw [h1]
    simp
  rw [hre]
  simp only
  rw [if_neg (by omega)]
  have hst : store_bytes (p ++ List.replicate n 0) S (List.take (n : Int).toNat data)
      = some (p ++ data) := by
    have ht : List.take (n : Int).toNat data = data := by
      apply List.take_of_length_le; simp; omega
    rw [ht]
    unfold store_bytes
    rw [if_pos (by simp; omega)]
    have h2 : S.toNat = p.length := by omega
    rw [h2]
    simp [hn]
  rw [hst]
  simp only
  rw [if_pos (by simp only [in_int]; omega)]

/-! ## The encoder loop -/

theorem write_record_append (p : List Nat) (S : Int) (count last : Nat)
    (hS : S = (p.length : Int)) (hmax : S + 4 ≤ 2147483647) :
    write_record { start := p, size := S, offset := S } count last
      = some { start := p ++ (le16 count ++ le16 last), size := S + 4, offset := S + 4 } := by
  unfold write_record
  have h1 := memwrite_append p (le16 count) S 2 hS rfl (by push_cast; omega)
  push_cast at h1
  rw [h1]
  simp only
  have h2 := memwrite_append (p ++ le16 count) (le16 last) (S + 2) 2
    (by simp [le16, hS]) rfl (by push_cast; omega)
  push_cast at h2
  rw [h2]
  simp only [List.append_assoc]
  have e : S + 2 + 2 = S + 4 := by ring
  rw [e]

theorem record_bytes_length (rs : List (Nat × Nat)) :
    (record_bytes rs).length = 4 * rs.length := by
  induction rs with
  | nil => rfl
  | cons x xs ih =>
    obtain ⟨n, c⟩ := x
    simp only [record_bytes, le16, List.length_append, List.length_cons, List.length_nil, ih]
    omega

theorem loop_spec (fuel : Nat) :
    ∀ (rest pre outp : List Nat) (last count total : Nat) (S : Int),
      S = ((pre ++ rest).length : Int) → S ≤ 2147483647 →
      rest.length % 3 = 0 → rest.length < 3 * fuel →
      (outp.length : Int) + 4 * ((rle_runs (quantized rest) last count).length : Int)
        ≤ 2147483647 →
      ∃ m1 o1 last1 count1 total1,
        convert_to_rle_loop fuel { start := pre ++ rest, size := S, offset := (pre.length : Int) }
            { start := outp, size := (outp.length : Int), offset := (outp.length : Int) }
            last count total
          = some (m1, o1, last1, count1, total1)
        ∧ (if count1 ≠ 0 then write_record o1 count1 last1 else some o1)
          = some { start := outp ++ record_bytes (rle_runs (quantized rest) last count),
                   size := ((outp ++ record_bytes (rle_runs (quantized rest) last count)).length
                     : Int),
                   offset := ((outp ++ record_bytes (rle_runs (quantized rest) last count)).length
                     : Int) } := by
  induction fuel with
  | zero => intro rest pre outp last count total S _ _ _ h; omega
  | succ fuel ih =>
    intro rest pre outp last count total S hS hmax hmod hfuel hout
    match rest, hS, hmod, hfuel, hout with
    | [], hS, _, _, hout =>
      refine ⟨{ start := pre ++ [], size := S, offset := (pre.length : Int) },
        { start := outp, size := (outp.length : Int), offset := (outp.length : Int) },
        last, count, total, ?_, ?_⟩
      · unfold convert_to_rle_loop
        rw [memread_end _ _ _ (by simp at hS; omega)]
        simp only
        rw [if_neg (by decide)]
      · simp only [quantized, rle_runs] at hout ⊢
        by_cases hc : count = 0
        · simp [hc, record_bytes]
        · simp only [hc, ne_eq, not_false_eq_true, if_true, List.length_singleton] at hout ⊢
          rw [write_record_append outp _ count last rfl (by omega)]
          simp [record_bytes, le16]
    | [_], _, hmod, _, _ => simp at hmod
    | [_, _], _, hmod, _, _ => simp at hmod
    | r :: g :: b :: rest1, hS, hmod, hfuel, hout =>
      have hpre : pre ++ r :: g :: b :: rest1 = (pre ++ [r, g, b]) ++ rest1 := by simp
      have hmod1 : rest1.length % 3 = 0 := by
        simp only [List.length_cons] at hmod; omega
      have hfuel1 : rest1.length < 3 * fuel := by
        simp only [List.length_cons] at hfuel; omega
      have hS1 : S = (((pre ++ [r, g, b]) ++ rest1).length : Int) := by rw [← hpre]; exact hS
      unfold convert_to_rle_loop
      rw [memread_pixel pre rest1 r g b S hS hmax]
      simp only [List.getD_cons_zero, List.getD_cons_succ, if_true]
      simp only [quantized, rle_runs] at hout ⊢
      rw [hpre]
      by_cases hc : count = 0
      · simp only [hc, ne_eq, not_true_eq_false, if_false] at hout ⊢
        exact ih rest1 (pre ++ [r, g, b]) outp _ 1 total S hS1 hmax hmod1 hfuel1 hout
      · simp only [hc, ne_eq, not_false_eq_true, if_true] at hout ⊢
        by_cases hm : to565 r g b % 65536 = last ∧ ¬ count = 65535
        · simp only [hm, and_self, not_false_eq_true, if_true] at hout ⊢
          exact ih rest1 (pre ++ [r, g, b]) outp _ _ total S hS1 hmax hmod1 hfuel1 hout
        · simp only [hm, if_false, List.length_cons] at hout ⊢
          rw [write_record_append outp _ count last rfl (by push_cast at hout; omega)]
          simp only
          have hlen : ((outp.length : Int) + 4)
              = ((outp ++ (le16 count ++ le16 last)).length : Int) := by
            simp [le16]
          rw [hlen]
          obtain ⟨m1, o1, l1, c1, t1, h1, h2⟩ :=
            ih rest1 (pre ++ [r, g, b]) (outp ++ (le16 count ++ le16 last)) (to565 r g b % 65536)
              1 ((total + count) % 4294967296) S hS1 hmax hmod1 hfuel1
              (by rw [← hlen]; push_cast at hout; omega)
          refine ⟨m1, o1, l1, c1, t1, h1, ?_⟩
          rw [h2]
          simp [record_bytes, List.append_assoc]

theorem rle_runs_sum (cs : List Nat) :
    ∀ (last count : Nat), count ≤ 65535 →
      ((rle_runs cs last count).map Prod.fst).sum = count + cs.length := by
  induction cs with
  | nil =>
    intro last count _
    by_cases hc : count = 0 <;> simp [rle_runs, hc]
  | cons c cs ih =>
    intro last count hle
    unfold rle_runs
    by_cases hc : count = 0
    · simp only [hc, ne_eq, not_true_eq_false, if_false]
      rw [ih _ 1 (by omega)]
      simp only [List.length_cons]; omega
    · simp only [hc, ne_eq, not_false_eq_true, if_true]
      by_cases hm : c = last ∧ ¬ count = 65535
      · simp only [hm, and_self, not_false_eq_true, if_true]
        rw [ih _ _ (by omega)]
        simp only [List.length_cons]; omega
      · simp only [hm, if_false, List.map_cons, List.sum_cons]
        rw [ih _ 1 (by omega)]
        simp only [List.length_cons]; omega

theorem rle_runs_length_le (cs : List Nat) :
    ∀ (last count : Nat),
      (rle_runs cs last count).length ≤ cs.length + (if count = 0 then 0 else 1) := by
  induction cs with
  | nil =>
    intro last count
    by_cases hc : count = 0 <;> simp [rle_runs, hc]
  | cons c cs ih =>
    intro last count
    unfold rle_runs
    by_cases hc : count = 0
    · simp only [hc, ne_eq, not_true_eq_false, if_false, if_true]
      have := ih c 1
      simp only [List.length_cons]
      simp at this
      omega
    · simp only [hc, ne_eq, not_false_eq_true, if_true, if_false]
      by_cases hm : c = last ∧ ¬ count = 65535
      · simp only [hm, and_self, not_false_eq_true, if_true]
        have := ih last ((count + 1) % 65536)
        simp only [List.length_cons]
        split at this <;> omega
      · simp only [hm, if_false, List.length_cons]
        have := ih c 1
        simp at this
        omega

theorem rle_runs_valid (cs : List Nat) :
    ∀ (last count : Nat), count ≤ 65535 → last ≤ 65535 → (∀ c ∈ cs, c ≤ 65535) →
      ∀ rec ∈ rle_runs cs last count, valid_record rec := by
  induction cs with
  | nil =>
    intro last count hc hl _ rec hrec
    by_cases h0 : count = 0
    · simp [rle_runs, h0] at hrec
    · simp only [rle_runs, h0, ne_eq, not_false_eq_true, if_true, List.mem_singleton] at hrec
      subst hrec
      exact ⟨by simp only; omega, hc, hl⟩
  | cons c cs ih =>
    intro last count hc hl hcs rec hrec
    have hc1 : c ≤ 65535 := hcs c (List.mem_cons_self _ _)
    have hcs1 : ∀ x ∈ cs, x ≤ 65535 := fun x hx => hcs x (List.mem_cons_of_mem _ hx)
    unfold rle_runs at hrec
    by_cases h0 : count = 0
    · simp only [h0, ne_eq, not_true_eq_false, if_false] at hrec
      exact ih _ 1 (by omega) hc1 hcs1 rec hrec
    · simp only [h0, ne_eq, not_false_eq_true, if_true] at hrec
      by_cases hm : c = last ∧ ¬ count = 65535
      · simp only [hm, and_self, not_false_eq_true, if_true] at hrec
        exact ih _ _ (by omega) hl hcs1 rec hrec
      · simp only [hm, if_false, List.mem_cons] at hrec
        rcases hrec with h | h
        · subst h
          exact ⟨by simp only; omega, hc, hl⟩
        · exact ih _ 1 (by omega) hc1 hcs1 rec h

theorem quantized_le : ∀ (mem : List Nat), ∀ q ∈ quantized mem, q ≤ 65535
  | [] => by simp [quantized]
  | [_] => by simp [quantized]
  | [_, _] => by simp [quantized]
  | r :: g :: b :: rest => by
    intro q hq
    simp only [quantized, List.mem_cons] at hq
    rcases hq with h | h
    · omega
    · exact quantized_le rest q h

theorem rle_records_record_bytes (rs : List (Nat × Nat))
    (h : ∀ rec ∈ rs, valid_record rec) : rle_records (record_bytes rs) = rs := by
  induction rs with
  | nil => rfl
  | cons x xs ih =>
    obtain ⟨n, c⟩ := x
    have hx := h (n, c) (List.mem_cons_self _ _)
    obtain ⟨_, hn, hc⟩ := hx
    simp only at hn hc
    simp only [record_bytes, le16, List.cons_append, List.nil_append, rle_records,
      List.append_eq, List.append_assoc]
    rw [ih (fun rec hrec => h rec (List.mem_cons_of_mem _ hrec))]
    congr 1
    ext
    · simp only; omega
    · simp only; omega

theorem quantized_length : ∀ (mem : List Nat), (quantized mem).length = mem.length / 3
  | [] => rfl
  | [_] => by simp [quantized]
  | [_, _] => by simp [quantized]
  | r :: g :: b :: rest => by
    simp only [quantized, List.length_cons, quantized_length rest]
    omega

theorem to_int_of_lt (u : Nat) (h : u < 2147483648) : to_int u = (u : Int) := by
  unfold to_int
  have h1 : u % 4294967296 = u := Nat.mod_eq_of_lt (by omega)
  rw [h1, if_pos h]

theorem to_unsigned_of_lt (u : Nat) (h : u < 4294967296) : to_unsigned (u : Int) = u := by
  unfold to_unsigned
  omega

theorem convert_to_rle_spec (ini : image) (hfmt : ini.format = .IMG_RGB888)
    (hlen : ini.mem.length = 3 * (ini.width * ini.height))
    (hin : 3 * (ini.width * ini.height) < 2147483648)
    (hout : 4 * (rle_runs (quantized ini.mem) 0 0).length < 2147483648) :
    convert_to_rle ini
      = some (some { mem := record_bytes (rle_runs (quantized ini.mem) 0 0),
                     height := 0, width := 0, format := .IMG_RLE565, error := 0,
                     size := 4 * (rle_runs (quantized ini.mem) 0 0).length }) := by
  have hsz : to_int (ini.height * ini.width * 3) = (ini.mem.length : Int) := by
    rw [to_int_of_lt _ (by nlinarith), hlen]
    push_cast; ring
  obtain ⟨m1, o1, l1, c1, t1, h1, h2⟩ :=
    loop_spec ((ini.mem.length : Int).toNat + 1) ini.mem [] [] 0 0 0 (ini.mem.length : Int)
      (by simp) (by omega) (by omega) (by omega) (by simp only [List.length_nil]; omega)
  simp only [List.nil_append, List.length_nil, Nat.cast_zero] at h1 h2
  unfold convert_to_rle
  rw [if_neg (by simp [hfmt])]
  simp only [memopen_image, hfmt, hsz, memopen]
  rw [h1]
  simp only
  rw [h2]
  simp only [record_bytes_length]
  rw [to_unsigned_of_lt _ (by omega)]

theorem convert_to_rle_empty (ini : image) (hfmt : ini.format = .IMG_RGB888)
    (hsz : to_int (ini.height * ini.width * 3) ≤ 0) :
    convert_to_rle ini
      = some (some { mem := [], height := 0, width := 0, format := .IMG_RLE565,
                     error := 0, size := 0 }) := by
  unfold convert_to_rle
  rw [if_neg (by simp [hfmt])]
  simp only [memopen_image, hfmt, memopen]
  unfold convert_to_rle_loop
  rw [memread_end _ _ _ hsz]
  simp [to_unsigned]

/-! ## Claims about the encoder -/

theorem runs_bound (ini : image) (hlen : ini.mem.length = 3 * (ini.width * ini.height))
    (hsize : 4 * (ini.width * ini.height) < 2147483648) :
    4 * (rle_runs (quantized ini.mem) 0 0).length < 2147483648 := by
  have h1 := rle_runs_length_le (quantized ini.mem) 0 0
  rw [quantized_length, hlen] at h1
  simp only [if_true] at h1
  omega

/-- Claim C1 (amended): for every RGB888 image whose buffer holds exactly `width * height`
3-byte pixels and whose pixel count satisfies `4 * width * height < 2 ^ 31`,
`convert_to_rle` returns an image and the run-length fields of its records sum to
`width * height`. -/
theorem C1_run_length_conservation (ini : image) (hfmt : ini.format = .IMG_RGB888)
    (hlen : ini.mem.length = 3 * (ini.width * ini.height))
    (hsize : 4 * (ini.width * ini.height) < 2147483648) :
    ∃ out, convert_to_rle ini = some (some out)
      ∧ ((rle_records out.mem).map Prod.fst).sum = ini.width * ini.height := by
  refine ⟨_, convert_to_rle_spec ini hfmt hlen (by omega) (runs_bound ini hlen hsize), ?_⟩
  simp only
  rw [rle_records_record_bytes _
    (rle_runs_valid _ 0 0 (by omega) (by omega) (quantized_le _)),
    rle_runs_sum _ 0 0 (by omega), quantized_length, hlen]
  omega

/-- Witness for C1: the 2 x 2 sample image. -/
theorem C1_run_length_conservation_witness :
    sample_rgb.format = .IMG_RGB888
      ∧ sample_rgb.mem.length = 3 * (sample_rgb.width * sample_rgb.height)
      ∧ 4 * (sample_rgb.width * sample_rgb.height) < 2147483648
      ∧ ∃ out, convert_to_rle sample_rgb = some (some out)
          ∧ ((rle_records out.mem).map Prod.fst).sum = sample_rgb.width * sample_rgb.height :=
  ⟨rfl, rfl, by decide, C1_run_length_conservation sample_rgb rfl rfl (by decide)⟩

/-- Counterexample to C1 as stated: the 65536 x 65536 image holds exactly
`width * height` pixels, yet `height * width * 3` is 0 in `unsigned int`, the input
stream has size 0 and no record is emitted, so the run lengths sum to 0. -/
theorem C1_counterexample :
    huge_rgb.format = .IMG_RGB888
      ∧ huge_rgb.mem.length = 3 * (huge_rgb.width * huge_rgb.height)
      ∧ convert_to_rle huge_rgb = some (some empty_rle)
      ∧ ((rle_records empty_rle.mem).map Prod.fst).sum = 0
      ∧ huge_rgb.width * huge_rgb.height = 4294967296
      ∧ ¬ ∃ out, convert_to_rle huge_rgb = some (some out)
          ∧ ((rle_records out.mem).map Prod.fst).sum = huge_rgb.width * huge_rgb.height := by
  have hrun : convert_to_rle huge_rgb = some (some empty_rle) :=
    convert_to_rle_empty huge_rgb rfl (by decide)
  refine ⟨rfl, List.length_replicate _ _, hrun, rfl, by decide, ?_⟩
  rintro ⟨out, hout, hsum⟩
  rw [hrun] at hout
  have he : out = empty_rle := by
    injection hout with h1
    injection h1 with h2
    exact h2.symm
  rw [he] at hsum
  revert hsum
  decide

/-- Claim C5: `convert_to_rle` applied to an RGB888 image with `width * height = 0`
returns an RLE565 image of size 0 whose buffer is empty, so it holds no record. -/
theorem C5_empty_image (ini : image) (hfmt : ini.format = .IMG_RGB888)
    (hzero : ini.width * ini.height = 0) :
    ∃ out, convert_to_rle ini = some (some out)
      ∧ out.format = .IMG_RLE565 ∧ out.size = 0 ∧ out.mem = [] ∧ rle_records out.mem = [] := by
  refine ⟨empty_rle, convert_to_rle_empty ini hfmt ?_, rfl, rfl, rfl, rfl⟩
  have h : ini.height * ini.width * 3 = 0 := by rw [Nat.mul_comm ini.height, hzero]
  rw [h]
  decide

/-- Witness for C5: the 0 x 0 image. -/
theorem C5_empty_image_witness :
    empty_rgb.format = .IMG_RGB888 ∧ empty_rgb.width * empty_rgb.height = 0
      ∧ ∃ out, convert_to_rle empty_rgb = some (some out)
          ∧ out.format = .IMG_RLE565 ∧ out.size = 0 ∧ out.mem = []
          ∧ rle_records out.mem = [] :=
  ⟨rfl, rfl, C5_empty_image empty_rgb rfl rfl⟩

/-! ## Output invariant of the encoder -/

theorem memwrite_overflow (f : memblk) (data : List Nat) (n : Int)
    (h : ¬ in_int (n + f.size)) : memwrite f data n = none := by
  unfold memwrite
  rw [if_pos h]

theorem record_bytes_append (rs : List (Nat × Nat)) (n c : Nat) :
    record_bytes (rs ++ [(n, c)]) = record_bytes rs ++ (le16 n ++ le16 c) := by
  induction rs with
  | nil => simp [record_bytes]
  | cons x xs ih =>
    obtain ⟨a, b⟩ := x
    simp only [List.cons_append, record_bytes, ih, List.append_assoc, List.append_eq]

theorem write_record_ok (o o2 : memblk) (count last : Nat) (ho : out_ok o)
    (h1 : 1 ≤ count) (hc : count ≤ 65535) (hl : last ≤ 65535)
    (hw : write_record o count last = some o2) : out_ok o2 := by
  obtain ⟨rs, hrs, hval, hsz, hoff, _⟩ := ho
  obtain ⟨p, S, off⟩ := o
  simp only at hrs hsz hoff
  rw [hoff] at hw
  by_cases hb : S + 4 ≤ 2147483647
  · rw [write_record_append p S count last hsz hb] at hw
    injection hw with hw
    subst hw
    refine ⟨rs ++ [(count, last)], ?_, ?_, ?_, rfl, hb⟩
    · simp only [record_bytes_append, hrs]
    · intro rec hrec
      rcases List.mem_append.mp hrec with h | h
      · exact hval rec h
      · rw [List.mem_singleton] at h
        subst h
        exact ⟨h1, hc, hl⟩
    · simp only [hsz, le16, List.length_append, List.length_cons, List.length_nil]
      push_cast; ring
  · exfalso
    unfold write_record at hw
    by_cases hb2 : S + 2 ≤ 2147483647
    · have h2 := memwrite_append p (le16 count) S 2 hsz rfl (by push_cast; omega)
      push_cast at h2
      rw [h2] at hw
      simp only at hw
      rw [memwrite_overflow _ _ _ (by simp only [in_int]; omega)] at hw
      simp at hw
    · rw [memwrite_overflow _ _ _ (by simp only [in_int]; omega)] at hw
      simp at hw

theorem loop_ok (fuel : Nat) :
    ∀ (m outfd : memblk) (last count total : Nat)
      (res : memblk × memblk × Nat × Nat × Nat),
      out_ok outfd → count ≤ 65535 → last ≤ 65535 →
      convert_to_rle_loop fuel m outfd last count total = some res →
      out_ok res.2.1 ∧ res.2.2.1 ≤ 65535 ∧ res.2.2.2.1 ≤ 65535 := by
  induction fuel with
  | zero =>
    intro m outfd last count total res _ _ _ h
    simp [convert_to_rle_loop] at h
  | succ fuel ih =>
    intro m outfd last count total res ho hc hl h
    unfold convert_to_rle_loop at h
    cases hr : memread m 3 with
    | none => rw [hr] at h; simp at h
    | some v =>
      obtain ⟨r, inb, m1⟩ := v
      rw [hr] at h
      simp only at h
      by_cases h3 : r = 3
      · simp only [h3, if_true] at h
        by_cases h0 : count = 0
        · simp only [h0, ne_eq, not_true_eq_false, if_false] at h
          exact ih _ _ _ _ _ res ho (by omega) (by omega) h
        · simp only [h0, ne_eq, not_false_eq_true, if_true] at h
          by_cases hm : to565 (inb.getD 0 0) (inb.getD 1 0) (inb.getD 2 0) % 65536 = last
              ∧ ¬ count = 65535
          · simp only [hm, and_self, not_false_eq_true, if_true] at h
            exact ih _ _ _ _ _ res ho (by omega) hl h
          · simp only [hm, if_false] at h
            cases hw : write_record outfd count last with
            | none => rw [hw] at h; simp at h
            | some o2 =>
              rw [hw] at h
              simp only at h
              exact ih _ _ _ _ _ res
                (write_record_ok outfd o2 count last ho (by omega) hc hl hw)
                (by omega) (by omega) h
      · simp only [h3, if_false] at h
        injection h with h
        subst h
        exact ⟨ho, hl, hc⟩

theorem convert_to_rle_ok (ini out : image)
    (h : convert_to_rle ini = some (some out)) :
    out.format = .IMG_RLE565
      ∧ ∃ rs, out.mem = record_bytes rs ∧ (∀ rec ∈ rs, valid_record rec)
          ∧ out.size = out.mem.length := by
  unfold convert_to_rle at h
  by_cases hf : ini.format = .IMG_RGB888
  · simp only [hf, ne_eq, not_true_eq_false, if_false] at h
    cases hm : memopen_image ini with
    | none => rw [hm] at h; simp at h
    | some m =>
      rw [hm] at h
      simp only at h
      cases hl : convert_to_rle_loop (m.size.toNat + 1) m (memopen [] 0) 0 0 0 with
      | none => rw [hl] at h; simp at h
      | some res =>
        obtain ⟨m1, outfd, last, count, total⟩ := res
        rw [hl] at h
        simp only at h
        have hinit : out_ok (memopen [] 0) :=
          ⟨[], rfl, by simp, by simp [memopen], by simp [memopen], by simp [memopen]⟩
        obtain ⟨ho, hlast, hcount⟩ :=
          loop_ok _ m (memopen [] 0) 0 0 0 _ hinit (by omega) (by omega) hl
        simp only at ho hlast hcount
        have hfin : ∀ o, (if count ≠ 0 then write_record outfd count last else some outfd)
            = some o → out_ok o := by
          intro o hw
          by_cases h0 : count = 0
          · simp only [h0, ne_eq, not_true_eq_false, if_false] at hw
            injection hw with hw
            subst hw
            exact ho
          · simp only [h0, ne_eq, not_false_eq_true, if_true] at hw
            exact write_record_ok outfd o count last ho (by omega) hcount hlast hw
        cases hw : (if count ≠ 0 then write_record outfd count last else some outfd) with
        | none => rw [hw] at h; simp at h
        | some o =>
          rw [hw] at h
          simp only at h
          injection h with h
          injection h with h
          subst h
          obtain ⟨rs, hrs, hval, hsz, _, hb⟩ := hfin o hw
          refine ⟨rfl, rs, hrs, hval, ?_⟩
          simp only [hsz] at hb ⊢
          exact to_unsigned_of_lt _ (by omega)
  · simp only [hf, ne_eq, not_false_eq_true, if_true] at h
    injection h with h
    simp at h
/-- Claim C2: for every RGB888 input, any image `convert_to_rle` produces is an RLE565 image
whose buffer is a sequence `rs` of 4-byte records, each the run length as a little-endian
16-bit value in 1..65535 followed by the colour code as a little-endian 16-bit value; its
`size` field is the buffer length (the final size of the write stream), equals
`4 * rs.length` and is a multiple of 4.  Such an image is produced whenever the buffer
holds exactly `width * height` pixels and `4 * width * height < 2 ^ 31`, and its records are
then the runs of the input. -/
theorem C2_output_well_formed (ini : image) (hfmt : ini.format = .IMG_RGB888) :
    (∀ out, convert_to_rle ini = some (some out) →
      out.format = .IMG_RLE565
        ∧ ∃ rs, out.mem = record_bytes rs ∧ rle_records out.mem = rs
            ∧ out.size = out.mem.length ∧ out.size = 4 * rs.length ∧ out.size % 4 = 0
            ∧ ∀ rec ∈ rs, 1 ≤ rec.1 ∧ rec.1 ≤ 65535 ∧ rec.2 ≤ 65535)
    ∧ (ini.mem.length = 3 * (ini.width * ini.height) →
        4 * (ini.width * ini.height) < 2147483648 →
        ∃ out, convert_to_rle ini = some (some out)
          ∧ out.mem = record_bytes (rle_runs (quantized ini.mem) 0 0)) := by
  constructor
  · intro out hrun
    obtain ⟨hf, rs, hrs, hval, hsz⟩ := convert_to_rle_ok ini out hrun
    have hlen : out.mem.length = 4 * rs.length := by rw [hrs, record_bytes_length]
    refine ⟨hf, rs, hrs, ?_, hsz, by omega, by omega, hval⟩
    rw [hrs]
    exact rle_records_record_bytes rs hval
  · intro hlen hsize
    exact ⟨_, convert_to_rle_spec ini hfmt hlen (by omega) (runs_bound ini hlen hsize), rfl⟩

/-- Witness for C2: the 2 x 2 sample image and the two records it encodes to. -/
theorem C2_output_well_formed_witness :
    sample_rgb.format = .IMG_RGB888
      ∧ convert_to_rle sample_rgb = some (some sample_rle)
      ∧ sample_rle.format = .IMG_RLE565
      ∧ ∃ rs, sample_rle.mem = record_bytes rs ∧ rle_records sample_rle.mem = rs
          ∧ sample_rle.size = sample_rle.mem.length ∧ sample_rle.size = 4 * rs.length
          ∧ sample_rle.size % 4 = 0
          ∧ ∀ rec ∈ rs, 1 ≤ rec.1 ∧ rec.1 ≤ 65535 ∧ rec.2 ≤ 65535 :=
  ⟨rfl, by decide, (C2_output_well_formed sample_rgb rfl).1 sample_rle (by decide)⟩

/-! ## Runs of one colour and runs of length one -/

theorem rle_runs_replicate (c k : Nat) :
    ∀ count, 1 ≤ count → count ≤ 65535 →
      rle_runs (List.replicate k c) c count
        = List.replicate ((count + k - 1) / 65535) (65535, c)
            ++ [((count + k - 1) % 65535 + 1, c)] := by
  induction k with
  | zero =>
    intro count h1 h2
    have e1 : (count + 0 - 1) / 65535 = 0 := by omega
    have e2 : (count + 0 - 1) % 65535 + 1 = count := by omega
    rw [e1, e2]
    simp only [List.replicate_zero, rle_runs, List.nil_append]
    rw [if_pos (by omega)]
  | succ k ih =>
    intro count h1 h2
    rw [List.replicate_succ]
    unfold rle_runs
    rw [if_pos (by omega)]
    by_cases hm : count = 65535
    · rw [if_neg (by simp [hm])]
      rw [ih 1 (by omega) (by omega)]
      have e1 : (count + (k + 1) - 1) / 65535 = (1 + k - 1) / 65535 + 1 := by omega
      have e2 : (count + (k + 1) - 1) % 65535 = (1 + k - 1) % 65535 := by omega
      rw [e1, e2, List.replicate_succ, hm]
      rfl
    · rw [if_pos ⟨rfl, hm⟩]
      have e0 : (count + 1) % 65536 = count + 1 := by omega
      rw [e0, ih (count + 1) (by omega) (by omega)]
      have e1 : count + 1 + k - 1 = count + (k + 1) - 1 := by omega
      rw [e1]

theorem full_runs_form (n c : Nat) (hn : 1 ≤ n) :
    List.replicate ((n - 1) / 65535) (65535, c) ++ [((n - 1) % 65535 + 1, c)]
      = List.replicate (n / 65535) (65535, c)
          ++ (if n % 65535 ≠ 0 then [(n % 65535, c)] else []) := by
  by_cases h : n % 65535 = 0
  · rw [if_neg (by simp [h])]
    have e1 : n / 65535 = (n - 1) / 65535 + 1 := by omega
    have e2 : (n - 1) % 65535 + 1 = 65535 := by omega
    rw [e1, e2, List.replicate_succ', List.append_nil]
  · rw [if_pos h]
    have e1 : n / 65535 = (n - 1) / 65535 := by omega
    have e2 : (n - 1) % 65535 + 1 = n % 65535 := by omega
    rw [e1, e2]

theorem rle_runs_same (cs : List Nat) (c : Nat) (hpos : 1 ≤ cs.length)
    (hsame : ∀ q ∈ cs, q = c) :
    rle_runs cs 0 0
      = List.replicate (cs.length / 65535) (65535, c)
          ++ (if cs.length % 65535 ≠ 0 then [(cs.length % 65535, c)] else []) := by
  have hrep : cs = List.replicate cs.length c := List.eq_replicate_iff.mpr ⟨rfl, hsame⟩
  obtain ⟨k, hk⟩ : ∃ k, cs.length = k + 1 := ⟨cs.length - 1, by omega⟩
  rw [← full_runs_form cs.length c hpos]
  rw [hrep, List.length_replicate, hk, List.replicate_succ]
  unfold rle_runs
  rw [if_neg (by simp)]
  rw [rle_runs_replicate c k 1 (by omega) (by omega)]
  have e1 : 1 + k - 1 = k + 1 - 1 := by omega
  rw [e1]

theorem rle_runs_adjacent (cs : List Nat) :
    ∀ prev, adjacent_differ (prev :: cs) →
      rle_runs cs prev 1 = (1, prev) :: cs.map (fun q => (1, q)) := by
  induction cs with
  | nil => intro prev _; simp [rle_runs]
  | cons c cs ih =>
    intro prev h
    obtain ⟨hne, hrest⟩ := h
    unfold rle_runs
    rw [if_pos (by omega), if_neg (by
      rintro ⟨he, _⟩
      exact hne he.symm)]
    rw [ih c hrest]
    simp

theorem rle_runs_distinct (cs : List Nat) (h : adjacent_differ cs) :
    rle_runs cs 0 0 = cs.map (fun q => (1, q)) := by
  cases cs with
  | nil => simp [rle_runs]
  | cons c cs =>
    unfold rle_runs
    rw [if_neg (by simp)]
    rw [rle_runs_adjacent cs c h]
    simp
theorem quantized_replicate (x : Nat) :
    ∀ n, quantized (List.replicate (3 * n) x) = List.replicate n (to565 x x x % 65536)
  | 0 => rfl
  | n + 1 => by
    have e : 3 * (n + 1) = (3 * n + 1 + 1) + 1 := by ring
    rw [e, List.replicate_succ, List.replicate_succ, List.replicate_succ, quantized,
      quantized_replicate x n, List.replicate_succ]

theorem alternating_length : ∀ n, (alternating n).length = 3 * n
  | 0 => rfl
  | n + 1 => by
    unfold alternating
    rw [List.length_append, alternating_length n]
    split <;> simp only [List.length_cons, List.length_nil] <;> omega

theorem quantized_alternating (n : Nat) :
    quantized (alternating (n + 1))
      = (if n % 2 = 0 then 65535 else 0) :: quantized (alternating n) := by
  rw [alternating]
  split <;> rfl

theorem alternating_differ : ∀ n, adjacent_differ (quantized (alternating n))
  | 0 => trivial
  | 1 => by rw [quantized_alternating]; trivial
  | n + 2 => by
    have ih := alternating_differ (n + 1)
    rw [quantized_alternating] at ih ⊢
    rw [quantized_alternating n]
    refine ⟨?_, ih⟩
    split <;> split <;> omega

/-! ## Claims C3 and C4 -/

/-- Claim C3 (amended): for every RGB888 image of `n = width * height >= 1` pixels with
`3 * n < 2 ^ 31` whose buffer holds exactly `n` pixels, all with the same colour code `c`,
`convert_to_rle` returns an image whose records are `n / 65535` records `(65535, c)`
followed, when `n % 65535 != 0`, by one record `(n % 65535, c)`; for `n = 70000` these are
exactly `(65535, c)` and `(4465, c)`. -/
theorem C3_max_run_splitting (ini : image) (c : Nat) (hfmt : ini.format = .IMG_RGB888)
    (hlen : ini.mem.length = 3 * (ini.width * ini.height))
    (hsize : 3 * (ini.width * ini.height) < 2147483648)
    (hpos : 1 ≤ ini.width * ini.height)
    (hsame : ∀ q ∈ quantized ini.mem, q = c) :
    ∃ out, convert_to_rle ini = some (some out)
      ∧ rle_records out.mem
          = List.replicate (ini.width * ini.height / 65535) (65535, c)
              ++ (if ini.width * ini.height % 65535 ≠ 0
                  then [(ini.width * ini.height % 65535, c)] else [])
      ∧ (ini.width * ini.height = 70000 → rle_records out.mem = [(65535, c), (4465, c)]) := by
  have hq : (quantized ini.mem).length = ini.width * ini.height := by
    rw [quantized_length, hlen]; omega
  have hruns := rle_runs_same (quantized ini.mem) c (by omega) hsame
  rw [hq] at hruns
  have hbound : 4 * (rle_runs (quantized ini.mem) 0 0).length < 2147483648 := by
    rw [hruns, List.length_append, List.length_replicate]
    split <;> simp only [List.length_cons, List.length_nil] <;> omega
  have hrec : rle_records (record_bytes (rle_runs (quantized ini.mem) 0 0))
      = rle_runs (quantized ini.mem) 0 0 :=
    rle_records_record_bytes _
      (rle_runs_valid _ 0 0 (by omega) (by omega) (quantized_le _))
  refine ⟨_, convert_to_rle_spec ini hfmt hlen hsize hbound, ?_, ?_⟩
  · simp only
    rw [hrec, hruns]
  · intro h70
    simp only
    rw [hrec, hruns, h70]
    rfl

/-- Witness for C3: 70000 pixels of one colour give the records `(65535, 32)`, `(4465, 32)`. -/
theorem C3_max_run_splitting_witness :
    flat_rgb.format = .IMG_RGB888
      ∧ flat_rgb.mem.length = 3 * (flat_rgb.width * flat_rgb.height)
      ∧ 3 * (flat_rgb.width * flat_rgb.height) < 2147483648
      ∧ 1 ≤ flat_rgb.width * flat_rgb.height
      ∧ (∀ q ∈ quantized flat_rgb.mem, q = 32)
      ∧ ∃ out, convert_to_rle flat_rgb = some (some out)
          ∧ rle_records out.mem = [(65535, 32), (4465, 32)] := by
  have hsame : ∀ q ∈ quantized flat_rgb.mem, q = 32 := by
    intro q hq
    have h := quantized_replicate 7 70000
    rw [show flat_rgb.mem = List.replicate (3 * 70000) 7 from rfl, h] at hq
    exact List.eq_of_mem_replicate hq
  have hlen : flat_rgb.mem.length = 3 * (flat_rgb.width * flat_rgb.height) :=
    List.length_replicate _ _
  obtain ⟨out, h1, _, h3⟩ :=
    C3_max_run_splitting flat_rgb 32 rfl hlen (by decide) (by decide) hsame
  exact ⟨rfl, hlen, by decide, by decide, hsame, out, h1, h3 rfl⟩

/-- Counterexample to C3 as stated: the `2 ^ 32` pixels of the 65536 x 65536 image all have
colour code 0, the claim asks for 65537 records `(65535, 0)` and one `(1, 0)`, and
`convert_to_rle` emits no record because `height * width * 3` is 0 in `unsigned int`. -/
theorem C3_counterexample :
    huge_rgb.format = .IMG_RGB888
      ∧ huge_rgb.mem.length = 3 * (huge_rgb.width * huge_rgb.height)
      ∧ 1 ≤ huge_rgb.width * huge_rgb.height
      ∧ (∀ q ∈ quantized huge_rgb.mem, q = 0)
      ∧ convert_to_rle huge_rgb = some (some empty_rle)
      ∧ rle_records empty_rle.mem
          ≠ List.replicate (huge_rgb.width * huge_rgb.height / 65535) (65535, 0)
              ++ (if huge_rgb.width * huge_rgb.height % 65535 ≠ 0
                  then [(huge_rgb.width * huge_rgb.height % 65535, 0)] else []) := by
  refine ⟨rfl, List.length_replicate _ _, by decide, ?_,
    convert_to_rle_empty huge_rgb rfl (by decide), ?_⟩
  · intro q hq
    have h := quantized_replicate 0 (65536 * 65536)
    rw [show huge_rgb.mem = List.replicate (3 * (65536 * 65536)) 0 from rfl, h] at hq
    exact List.eq_of_mem_replicate hq
  · intro h
    have hl := congrArg List.length h
    rw [List.length_append, List.length_replicate] at hl
    have e : huge_rgb.width * huge_rgb.height / 65535 = 65537 := by decide
    rw [e] at hl
    have e0 : (rle_records empty_rle.mem).length = 0 := rfl
    omega

/-- Claim C4 (amended): for every RGB888 image with `4 * width * height < 2 ^ 31` whose buffer
holds exactly `width * height` pixels, no two adjacent ones with the same colour code,
`convert_to_rle` returns an image with exactly one record per pixel, in input order, each
with run length 1 and that pixel's colour code. -/
theorem C4_no_false_merging (ini : image) (hfmt : ini.format = .IMG_RGB888)
    (hlen : ini.mem.length = 3 * (ini.width * ini.height))
    (hsize : 4 * (ini.width * ini.height) < 2147483648)
    (hadj : adjacent_differ (quantized ini.mem)) :
    ∃ out, convert_to_rle ini = some (some out)
      ∧ rle_records out.mem = (quantized ini.mem).map (fun q => (1, q)) := by
  refine ⟨_, convert_to_rle_spec ini hfmt hlen (by omega) (runs_bound ini hlen hsize), ?_⟩
  simp only
  rw [rle_records_record_bytes _
    (rle_runs_valid _ 0 0 (by omega) (by omega) (quantized_le _)),
    rle_runs_distinct _ hadj]

/-- Witness for C4: pixels `[A, B, A, B]` with A red (code 63488) and B blue (code 31) give
the four records `(1, 63488)`, `(1, 31)`, `(1, 63488)`, `(1, 31)`. -/
theorem C4_no_false_merging_witness :
    abab_rgb.format = .IMG_RGB888
      ∧ abab_rgb.mem.length = 3 * (abab_rgb.width * abab_rgb.height)
      ∧ 4 * (abab_rgb.width * abab_rgb.height) < 2147483648
      ∧ adjacent_differ (quantized abab_rgb.mem)
      ∧ ∃ out, convert_to_rle abab_rgb = some (some out)
          ∧ rle_records out.mem = [(1, 63488), (1, 31), (1, 63488), (1, 31)] :=
  ⟨rfl, rfl, by decide, ⟨by decide, by decide, by decide, trivial⟩,
    C4_no_false_merging abab_rgb rfl rfl (by decide)
      ⟨by decide, by decide, by decide, trivial⟩⟩

/-- Counterexample to C4 as stated: the `2 ^ 32` pixels of the 65536 x 65536 alternating
image differ from their neighbours, the claim asks for one record per pixel, and
`convert_to_rle` emits no record because `height * width * 3` is 0 in `unsigned int`. -/
theorem C4_counterexample :
    huge_alternating_rgb.format = .IMG_RGB888
      ∧ huge_alternating_rgb.mem.length
          = 3 * (huge_alternating_rgb.width * huge_alternating_rgb.height)
      ∧ adjacent_differ (quantized huge_alternating_rgb.mem)
      ∧ convert_to_rle huge_alternating_rgb = some (some empty_rle)
      ∧ rle_records empty_rle.mem
          ≠ (quantized huge_alternating_rgb.mem).map (fun q => (1, q)) := by
  refine ⟨rfl, alternating_length _, alternating_differ _,
    convert_to_rle_empty huge_alternating_rgb rfl (by decide), ?_⟩
  intro h
  have hl := congrArg List.length h
  rw [List.length_map, quantized_length] at hl
  rw [show huge_alternating_rgb.mem = alternating (65536 * 65536) from rfl,
    alternating_length] at hl
  have e0 : (rle_records empty_rle.mem).length = 0 := rfl
  omega

/-! ## Quantizer -/

theorem to565_eq (r g b : Nat) (hg : g < 256) (hb : b < 256) :
    to565 r g b = r / 8 * 2048 + g / 4 * 32 + b / 8 := by
  unfold to565
  simp only [Nat.shiftRight_eq_div_pow, Nat.shiftLeft_eq]
  norm_num
  have h1 : r / 8 * 2048 ||| g / 4 * 32 = r / 8 * 2048 + g / 4 * 32 := by
    have := Nat.mul_add_lt_is_or (i := 11) (b := g / 4 * 32) (by norm_num; omega) (r / 8)
    norm_num at this
    rw [Nat.mul_comm 2048] at this
    exact this.symm
  rw [h1]
  have h2 := Nat.mul_add_lt_is_or (i := 5) (b := b / 8) (by norm_num; omega)
    (r / 8 * 64 + g / 4)
  norm_num at h2
  have e : r / 8 * 2048 + g / 4 * 32 = 32 * (r / 8 * 64 + g / 4) := by ring
  rw [e, ← h2]

/-- Claim C6: for all bytes `r`, `g`, `b`, `to565(r,g,b)` is a value `v` in 0..65535 with
`v >> 11 = r >> 3`, `(v >> 5) & 0x3F = g >> 2` and `v & 0x1F = b >> 3`. -/
theorem C6_quantization_bit_fields (r g b : Nat) (hr : r < 256) (hg : g < 256)
    (hb : b < 256) :
    to565 r g b ≤ 65535
      ∧ to565 r g b >>> 11 = r >>> 3
      ∧ (to565 r g b >>> 5) &&& 0x3F = g >>> 2
      ∧ to565 r g b &&& 0x1F = b >>> 3 := by
  rw [to565_eq r g b hg hb]
  have h63 : (0x3F : Nat) = 2 ^ 6 - 1 := by norm_num
  have h31 : (0x1F : Nat) = 2 ^ 5 - 1 := by norm_num
  rw [h63, h31, Nat.and_pow_two_sub_one_eq_mod, Nat.and_pow_two_sub_one_eq_mod]
  simp only [Nat.shiftRight_eq_div_pow]
  norm_num
  refine ⟨by omega, by omega, by omega, by omega⟩

/-- Witness for C6: the pixel (255, 130, 7) has code 0xFC00 with fields 31, 32 and 0. -/
theorem C6_quantization_bit_fields_witness :
    (255 < 256 ∧ 130 < 256 ∧ 7 < 256)
      ∧ to565 255 130 7 = 64512
      ∧ (to565 255 130 7 ≤ 65535
        ∧ to565 255 130 7 >>> 11 = 255 >>> 3
        ∧ (to565 255 130 7 >>> 5) &&& 0x3F = 130 >>> 2
        ∧ to565 255 130 7 &&& 0x1F = 7 >>> 3) :=
  ⟨⟨by decide, by decide, by decide⟩, by decide,
    C6_quantization_bit_fields 255 130 7 (by decide) (by decide) (by decide)⟩

/-! ## Format converter -/

theorem get_at (pre rest : List Nat) (x i : Nat) (h : i = pre.length) :
    (pre ++ x :: rest).get? i = some x := by
  subst h
  induction pre with
  | nil => rfl
  | cons y ys ih => exact ih

theorem set_at (pre rest : List Nat) (x a i : Nat) (h : i = pre.length) :
    (pre ++ x :: rest).set i a = pre ++ a :: rest := by
  subst h
  induction pre with
  | nil => rfl
  | cons y ys ih => simp [ih]

theorem convert_to_rgb_loop_zero (inmem omem : List Nat) (j : Nat) :
    convert_to_rgb_loop inmem 0 j omem = some omem := rfl

theorem convert_to_rgb_loop_succ (inmem omem : List Nat) (k j : Nat) : convert_to_rgb_loop inmem (k+1) j omem =
    if ¬ (in_int ((j : Int) * 4 + 2) ∧ in_int ((j : Int) + 1)) then none
    else
      match inmem.get? (j * 4 + 0), inmem.get? (j * 4 + 1), inmem.get? (j * 4 + 2) with
      | some r, some g, some b =>
        if j * 3 + 2 < omem.length then
          convert_to_rgb_loop inmem k (j + 1)
            (((omem.set (j * 3 + 0) r).set (j * 3 + 1) g).set (j * 3 + 2) b)
        else none
      | _, _, _ => none := by
  rfl

theorem convert_to_rgb_loop_spec (k : Nat) :
    ∀ (pre rest done zeros : List Nat) (j : Nat),
      pre.length = 4 * j → rest.length = 4 * k → done.length = 3 * j →
      zeros.length = 3 * k → 4 * (j + k) ≤ 2147483648 →
      convert_to_rgb_loop (pre ++ rest) k j (done ++ zeros)
        = some (done ++ strip_alpha rest) := by
  induction k with
  | zero =>
    intro pre rest done zeros j _ hrest _ hzeros _
    have h1 : rest = [] := List.length_eq_zero.mp (by omega)
    have h2 : zeros = [] := List.length_eq_zero.mp (by omega)
    subst h1 h2
    simp [convert_to_rgb_loop_zero, strip_alpha]
  | succ k ih =>
    intro pre rest done zeros j hpre hrest hdone hzeros hb
    match rest, hrest, zeros, hzeros with
    | r :: g :: b :: a :: rest1, hrest, z0 :: z1 :: z2 :: zeros1, hzeros =>
      simp only [List.length_cons] at hrest hzeros
      have hc : in_int ((j : Int) * 4 + 2) ∧ in_int ((j : Int) + 1) := by
        simp only [in_int]
        omega
      rw [convert_to_rgb_loop_succ, if_neg (not_not.mpr hc)]
      have g0 : (pre ++ r :: g :: b :: a :: rest1).get? (j * 4 + 0) = some r :=
        get_at pre _ r _ (by omega)
      have g1 : (pre ++ r :: g :: b :: a :: rest1).get? (j * 4 + 1) = some g := by
        have e : pre ++ r :: g :: b :: a :: rest1 = (pre ++ [r]) ++ g :: b :: a :: rest1 := by
          simp
        rw [e]
        exact get_at _ _ g _ (by simp; omega)
      have g2 : (pre ++ r :: g :: b :: a :: rest1).get? (j * 4 + 2) = some b := by
        have e : pre ++ r :: g :: b :: a :: rest1 = (pre ++ [r, g]) ++ b :: a :: rest1 := by
          simp
        rw [e]
        exact get_at _ _ b _ (by simp; omega)
      rw [g0, g1, g2]
      simp only
      rw [if_pos (by simp only [List.length_append, List.length_cons]; omega)]
      have s0 : (done ++ z0 :: z1 :: z2 :: zeros1).set (j * 3 + 0) r
          = done ++ r :: z1 :: z2 :: zeros1 := set_at done _ z0 r _ (by omega)
      have s1 : (done ++ r :: z1 :: z2 :: zeros1).set (j * 3 + 1) g
          = done ++ r :: g :: z2 :: zeros1 := by
        have e : done ++ r :: z1 :: z2 :: zeros1 = (done ++ [r]) ++ z1 :: z2 :: zeros1 := by
          simp
        rw [e, set_at _ _ z1 g _ (by simp; omega)]
        simp
      have s2 : (done ++ r :: g :: z2 :: zeros1).set (j * 3 + 2) b
          = done ++ r :: g :: b :: zeros1 := by
        have e : done ++ r :: g :: z2 :: zeros1 = (done ++ [r, g]) ++ z2 :: zeros1 := by
          simp
        rw [e, set_at _ _ z2 b _ (by simp; omega)]
        simp
      rw [s0, s1, s2]
      have e1 : pre ++ r :: g :: b :: a :: rest1 = (pre ++ [r, g, b, a]) ++ rest1 := by simp
      have e2 : done ++ r :: g :: b :: zeros1 = (done ++ [r, g, b]) ++ zeros1 := by simp
      rw [e1, e2, ih (pre ++ [r, g, b, a]) rest1 (done ++ [r, g, b]) zeros1 (j + 1)
        (by simp; omega) (by omega) (by simp; omega) (by omega) (by omega)]
      simp [strip_alpha]

theorem strip_alpha_length : ∀ (l : List Nat), (strip_alpha l).length = 3 * (l.length / 4)
  | [] => rfl
  | [_] => by simp [strip_alpha]
  | [_, _] => by simp [strip_alpha]
  | [_, _, _] => by simp [strip_alpha]
  | r :: g :: b :: a :: rest => by
    simp only [strip_alpha, List.length_cons, strip_alpha_length rest]
    omega

theorem strip_alpha_get (j : Nat) :
    ∀ (l : List Nat) (k : Nat), k < 3 → 4 * (j + 1) ≤ l.length →
      (strip_alpha l).get? (3 * j + k) = l.get? (4 * j + k) := by
  induction j with
  | zero =>
    intro l k hk hl
    match l, hl with
    | r :: g :: b :: a :: rest, _ =>
      match k, hk with
      | 0, _ => rfl
      | 1, _ => rfl
      | 2, _ => rfl
  | succ j ih =>
    intro l k hk hl
    match l, hl with
    | r :: g :: b :: a :: rest, hl =>
      simp only [List.length_cons] at hl
      have e1 : 3 * (j + 1) + k = (3 * j + k) + 1 + 1 + 1 := by ring
      have e2 : 4 * (j + 1) + k = (4 * j + k) + 1 + 1 + 1 + 1 := by ring
      rw [e1, e2]
      simp only [strip_alpha, List.get?_cons_succ]
      exact ih rest k hk (by omega)

/-- Claim C7 (amended): `convert_to_rgb` returns null exactly when the input format is not
RGBA8888; for an RGBA8888 image whose buffer holds exactly `width * height` 4-byte pixels
and with `4 * width * height < 2 ^ 31` it returns a new RGB888 image with the same width and
height and a buffer of `width * height * 3` bytes with `out[3j+k] = in[4j+k]` for every
pixel index `j < width * height` and `k < 3`.  The input is a value the function does not
modify. -/
theorem C7_rgba_to_rgb (inp : image) :
    (convert_to_rgb inp = some none ↔ inp.format ≠ .IMG_RGBA8888)
      ∧ (inp.format = .IMG_RGBA8888 → inp.mem.length = 4 * (inp.width * inp.height) →
          4 * (inp.width * inp.height) < 2147483648 →
          ∃ o, convert_to_rgb inp = some (some o)
            ∧ o.format = .IMG_RGB888 ∧ o.width = inp.width ∧ o.height = inp.height
            ∧ o.mem.length = inp.width * inp.height * 3
            ∧ ∀ j k, j < inp.width * inp.height → k < 3 →
                o.mem.get? (3 * j + k) = inp.mem.get? (4 * j + k)) := by
  constructor
  · unfold convert_to_rgb
    by_cases hf : inp.format = .IMG_RGBA8888
    · simp only [hf, ne_eq, not_true_eq_false, if_false, iff_false]
      cases convert_to_rgb_loop inp.mem (inp.width * inp.height % 4294967296) 0
        (new_image inp.width inp.height .IMG_RGB888).mem <;> simp
    · simp [hf]
  · intro hf hlen hsize
    have hmod : inp.width * inp.height % 4294967296 = inp.width * inp.height :=
      Nat.mod_eq_of_lt (by omega)
    have hmod3 : inp.width * inp.height * 3 % 4294967296 = inp.width * inp.height * 3 :=
      Nat.mod_eq_of_lt (by omega)
    have hloop := convert_to_rgb_loop_spec (inp.width * inp.height) [] inp.mem []
      (List.replicate (inp.width * inp.height * 3) 0) 0 rfl hlen rfl
      (by rw [List.length_replicate]; ring) (by omega)
    simp only [List.nil_append] at hloop
    refine ⟨{ new_image inp.width inp.height .IMG_RGB888 with mem := strip_alpha inp.mem },
      ?_, rfl, rfl, rfl, ?_, ?_⟩
    · unfold convert_to_rgb
      rw [if_neg (by simp [hf])]
      simp only [new_image, hmod, hmod3, hloop]
    · simp only [strip_alpha_length, hlen]
      omega
    · intro j k hj hk
      exact strip_alpha_get j inp.mem k hk (by omega)

/-- Witness for C7: the 2 x 1 sample image loses its two alpha bytes. -/
theorem C7_rgba_to_rgb_witness :
    sample_rgba.format = .IMG_RGBA8888
      ∧ sample_rgba.mem.length = 4 * (sample_rgba.width * sample_rgba.height)
      ∧ convert_to_rgb sample_rgba
          = some (some { mem := [10, 20, 30, 40, 50, 60], height := 1, width := 2,
                         format := .IMG_RGB888, error := 0, size := 0 })
      ∧ ∃ o, convert_to_rgb sample_rgba = some (some o)
          ∧ o.format = .IMG_RGB888 ∧ o.width = sample_rgba.width
          ∧ o.height = sample_rgba.height
          ∧ o.mem.length = sample_rgba.width * sample_rgba.height * 3
          ∧ ∀ j k, j < sample_rgba.width * sample_rgba.height → k < 3 →
              o.mem.get? (3 * j + k) = sample_rgba.mem.get? (4 * j + k) :=
  ⟨rfl, rfl, by decide, (C7_rgba_to_rgb sample_rgba).2 rfl rfl (by decide)⟩

/-- Counterexample to C7 as stated: for the 65536 x 65536 RGBA8888 image both
`width * height * 3` and the loop bound `width * height` are 0 in `unsigned int`, so
`convert_to_rgb` returns an image with an empty buffer instead of `3 * 2 ^ 32` bytes. -/
theorem C7_counterexample :
    huge_rgba.format = .IMG_RGBA8888
      ∧ huge_rgba.mem.length = 4 * (huge_rgba.width * huge_rgba.height)
      ∧ convert_to_rgb huge_rgba
          = some (some { mem := [], height := 65536, width := 65536,
                         format := .IMG_RGB888, error := 0, size := 0 })
      ∧ ¬ ∃ o, convert_to_rgb huge_rgba = some (some o)
          ∧ o.mem.length = huge_rgba.width * huge_rgba.height * 3 := by
  have hrun : convert_to_rgb huge_rgba
      = some (some { mem := [], height := 65536, width := 65536,
                     format := .IMG_RGB888, error := 0, size := 0 }) := by
    unfold convert_to_rgb
    rw [if_neg (by decide)]
    have h0 : huge_rgba.width * huge_rgba.height % 4294967296 = 0 := by decide
    simp only [h0, convert_to_rgb_loop_zero, new_image]
    have h1 : huge_rgba.width * huge_rgba.height * 3 % 4294967296 = 0 := by decide
    rw [h1]
    rfl
  refine ⟨rfl, List.length_replicate _ _, hrun, ?_⟩
  rintro ⟨o, ho, hlen⟩
  rw [hrun] at ho
  injection ho with ho
  injection ho with ho
  subst ho
  revert hlen
  decide

/-! ## The step budget of the encoder loop -/

theorem memread_three_inv (m m1 : memblk) (inb : List Nat)
    (h : memread m 3 = some (3, inb, m1)) :
    m.offset < m.size ∧ m1.size = m.size ∧ m1.offset = m.offset + 3 := by
  unfold memread at h
  by_cases h0 : m.offset ≥ m.size
  · rw [if_pos h0] at h
    simp at h
  · rw [if_neg h0] at h
    by_cases h1 : ¬ (in_int (3 + m.offset) ∧ in_int (memread_len m 3)
        ∧ in_int (m.offset + memread_len m 3))
    · rw [if_pos h1] at h
      simp at h
    · rw [if_neg h1] at h
      cases hl : load_bytes m.start m.offset (memread_len m 3) with
      | none => rw [hl] at h; simp at h
      | some data =>
        rw [hl] at h
        simp only [Option.some.injEq, Prod.mk.injEq] at h
        obtain ⟨h3, _, hm⟩ := h
        subst hm
        refine ⟨by omega, rfl, ?_⟩
        simp only [h3]

/-- A budget above the number of unread bytes is never exhausted: a larger one gives the
same result. -/
theorem convert_to_rle_loop_budget (fuel : Nat) :
    ∀ (k : Nat) (m outfd : memblk) (last count total : Nat),
      (m.size - m.offset).toNat < fuel →
      convert_to_rle_loop (fuel + k) m outfd last count total
        = convert_to_rle_loop fuel m outfd last count total := by
  induction fuel with
  | zero => intro k m outfd last count total h; omega
  | succ fuel ih =>
    intro k m outfd last count total h
    have e : fuel + 1 + k = (fuel + k) + 1 := by omega
    rw [e]
    unfold convert_to_rle_loop
    cases hr : memread m 3 with
    | none => rfl
    | some v =>
      obtain ⟨r, inb, m1⟩ := v
      simp only
      by_cases h3 : r = 3
      · subst h3
        obtain ⟨hlt, hs, ho⟩ := memread_three_inv m m1 inb hr
        have hm1 : (m1.size - m1.offset).toNat < fuel := by rw [hs, ho]; omega
        simp only [if_true]
        rw [ih k m1 outfd _ _ _ hm1, ih k m1 outfd _ _ _ hm1]
        cases write_record outfd count last with
        | none => rfl
        | some o2 =>
          simp only
          rw [ih k m1 o2 _ _ _ hm1]
      · simp only [h3, if_false]

/-- On a truncated read (`offset < size < offset + count`) line 132
yields a negative `read_len` and `memread` is undefined. -/
theorem memread_truncated (f : memblk) (count : Int)
    (hlt : f.offset < f.size) (htrunc : count > f.size - f.offset) :
    memread_len f count = f.size - f.offset - count ∧ memread_len f count < 0
      ∧ memread f count = none := by
  have hl : memread_len f count = f.size - f.offset - count := by
    unfold memread_len
    rw [if_pos (by omega)]
    ring
  refine ⟨hl, by omega, ?_⟩
  unfold memread
  rw [if_neg (by simp only [ge_iff_le, not_le]; exact hlt)]
  by_cases h1 : ¬ (in_int (count + f.offset) ∧ in_int (memread_len f count)
      ∧ in_int (f.offset + memread_len f count))
  · rw [if_pos h1]
  · rw [if_neg h1]
    have hload : load_bytes f.start f.offset (memread_len f count) = none := by
      unfold load_bytes
      rw [if_neg (by
        rintro ⟨_, h2, _⟩
        omega)]
    rw [hload]

/-! ## Claims about the memory stream -/

theorem memwrite_all_spec (chunks : List (List Nat)) :
    ∀ (p : List Nat), (p.length : Int) + (chunks.flatten.length : Int) ≤ 2147483647 →
      memwrite_all { start := p, size := (p.length : Int), offset := (p.length : Int) } chunks
        = some { start := p ++ chunks.flatten,
                 size := ((p ++ chunks.flatten).length : Int),
                 offset := ((p ++ chunks.flatten).length : Int) } := by
  induction chunks with
  | nil => intro p _; simp [memwrite_all]
  | cons d ds ih =>
    intro p hb
    simp only [List.flatten_cons, List.length_append] at hb
    push_cast at hb
    unfold memwrite_all
    rw [memwrite_append p d (p.length : Int) d.length rfl rfl (by omega)]
    simp only
    have e : (p.length : Int) + (d.length : Int) = ((p ++ d).length : Int) := by
      simp
    rw [e, ih (p ++ d) (by rw [← e]; omega)]
    simp [List.append_assoc]

theorem memread_in_range (f : memblk) (count : Int) (hint : f.size ≤ 2147483647)
    (hbuf : f.size ≤ (f.start.length : Int)) (hcount : 0 ≤ count) (hoff : 0 ≤ f.offset)
    (hend : f.offset + count ≤ f.size) (hlt : f.offset < f.size) :
    memread f count
      = some (count, (f.start.drop f.offset.toNat).take count.toNat,
          { f with offset := f.offset + count }) := by
  have hl : memread_len f count = count := by
    unfold memread_len
    rw [if_neg (by omega)]
  unfold memread
  rw [if_neg (by simp only [ge_iff_le, not_le]; exact hlt)]
  rw [hl, if_neg (by simp only [in_int, not_not]; omega)]
  unfold load_bytes
  rw [if_pos ⟨hoff, hcount, by omega⟩]

theorem memread_whole (l : List Nat) (hint : (l.length : Int) ≤ 2147483647) :
    memread { start := l, size := (l.length : Int), offset := 0 } (l.length : Int)
      = some ((l.length : Int), l,
          { start := l, size := (l.length : Int), offset := (l.length : Int) }) := by
  by_cases h0 : l.length = 0
  · have hnil : l = [] := List.length_eq_zero.mp h0
    rw [hnil]
    rfl
  · rw [memread_in_range _ _ hint (le_refl _) (by omega) (le_refl _)
      (by simp only; omega) (by simp only; omega)]
    simp

/-- Claim C8: after the chunks of a byte sequence of total length `N` (an `int`) are written
by successive `memwrite` calls to a stream opened by `memopen` over an empty buffer of size
0, `memseek` to absolute offset 0 followed by `memread` of `N` bytes returns `N`, yields
exactly the written bytes in order, and leaves the stream with size `N`. -/
theorem C8_stream_round_trip (chunks : List (List Nat))
    (hint : (chunks.flatten.length : Int) ≤ 2147483647) :
    ∃ f1 f2, memwrite_all (memopen [] 0) chunks = some f1
      ∧ memread (memseek f1 0 0).2 (chunks.flatten.length : Int)
          = some ((chunks.flatten.length : Int), chunks.flatten, f2)
      ∧ f2.size = (chunks.flatten.length : Int) := by
  have hw := memwrite_all_spec chunks [] (by simpa using hint)
  simp only [List.nil_append, List.length_nil, Nat.cast_zero] at hw
  refine ⟨_, { start := chunks.flatten, size := (chunks.flatten.length : Int),
               offset := (chunks.flatten.length : Int) }, hw, ?_, rfl⟩
  have hseek : ∀ (p : List Nat) (S o : Int),
      (memseek { start := p, size := S, offset := o } 0 0).2
        = { start := p, size := S, offset := 0 } := fun _ _ _ => rfl
  rw [hseek]
  exact memread_whole chunks.flatten hint

/-- Witness for C8: the bytes 1..5 written as the chunks `[1, 2]` and `[3, 4, 5]`. -/
theorem C8_stream_round_trip_witness :
    (([[1, 2], [3, 4, 5]] : List (List Nat)).flatten.length : Int) ≤ 2147483647
      ∧ ∃ f1 f2, memwrite_all (memopen [] 0) [[1, 2], [3, 4, 5]] = some f1
          ∧ memread (memseek f1 0 0).2
              (([[1, 2], [3, 4, 5]] : List (List Nat)).flatten.length : Int)
              = some ((([[1, 2], [3, 4, 5]] : List (List Nat)).flatten.length : Int),
                  ([[1, 2], [3, 4, 5]] : List (List Nat)).flatten, f2)
          ∧ f2.size = (([[1, 2], [3, 4, 5]] : List (List Nat)).flatten.length : Int) :=
  ⟨by decide, C8_stream_round_trip [[1, 2], [3, 4, 5]] (by decide)⟩

/-- Evaluation for C9: on a stream of 5 bytes with the cursor at 3, a request for 3 bytes
makes line 132 compute `read_len = 5 - (3 + 3) = -1` where 2 bytes remain, and line 134
then calls `memcpy` with a negative length, so the read is undefined. -/
theorem C9_truncated_read_failing_input :
    0 ≤ short_stream.offset ∧ short_stream.offset < short_stream.size
      ∧ 3 > short_stream.size - short_stream.offset
      ∧ short_stream.size - short_stream.offset = 2
      ∧ memread_len short_stream 3 = -1
      ∧ memread short_stream 3 = none :=
  ⟨by decide, by decide, by decide, by decide, by decide,
    (memread_truncated short_stream 3 (by decide) (by decide)).2.2⟩

/-- Claim C10: for a stream whose `size` is an `int` no larger than its buffer and a count
`>= 0` with `0 <= offset`, `offset + count <= size` and `offset < size`, `memread` returns
`count`, delivers `buffer[offset .. offset+count)`, advances `offset` by `count` and leaves
size and buffer unchanged; and whenever `offset >= size`, `memread` returns 0, copies
nothing and leaves the stream unchanged. -/
theorem C10_memread_in_range_and_eof (f : memblk) (count : Int) :
    (f.size ≤ 2147483647 → f.size ≤ (f.start.length : Int) → 0 ≤ count → 0 ≤ f.offset →
      f.offset + count ≤ f.size → f.offset < f.size →
      memread f count
        = some (count, (f.start.drop f.offset.toNat).take count.toNat,
            { start := f.start, size := f.size, offset := f.offset + count }))
      ∧ (f.offset ≥ f.size → memread f count = some (0, [], f)) := by
  constructor
  · intro h1 h2 h3 h4 h5 h6
    exact memread_in_range f count h1 h2 h3 h4 h5 h6
  · intro h
    unfold memread
    rw [if_pos h]

/-- Witness for C10: reading 2 bytes at offset 3 of a 5-byte stream, then reading at the
end of the stream. -/
theorem C10_memread_in_range_and_eof_witness :
    memread short_stream 2 = some (2, [4, 5], { start := [1, 2, 3, 4, 5], size := 5, offset := 5 })
      ∧ memread { start := [1, 2, 3, 4, 5], size := 5, offset := 5 } 2
          = some (0, [], { start := [1, 2, 3, 4, 5], size := 5, offset := 5 }) :=
  ⟨(C10_memread_in_range_and_eof short_stream 2).1 (by decide) (by decide) (by decide)
      (by decide) (by decide) (by decide),
    (C10_memread_in_range_and_eof { start := [1, 2, 3, 4, 5], size := 5, offset := 5 } 2).2
      (by decide)⟩

/-! ## Seeking -/

theorem to_int_to_unsigned_add (a : Int) (d : Nat) (h : in_int (a + (d : Int))) :
    to_int (to_unsigned a + d) = a + (d : Int) := by
  unfold in_int at h
  unfold to_int to_unsigned
  split <;> omega

/-- Claim C12 (amended): for every stream and every delta the `unsigned int` parameter holds
(`delta >= 0`) for which the new offset is an `int`, `memseek` with mode 0 sets
`offset = delta` and leaves size unchanged; mode 1 sets `offset = offset + delta` and leaves
size unchanged; mode 2 sets `offset = size + delta` and sets size to the new offset exactly
when `delta > 0`, so for `delta = 0` size is unchanged.  The buffer is unchanged in all
three modes. -/
theorem C12_seek_semantics (f : memblk) (delta : Nat) :
    (in_int (delta : Int) →
      memseek f delta 0
        = (none, { start := f.start, size := f.size, offset := (delta : Int) }))
    ∧ (in_int (f.offset + (delta : Int)) →
      memseek f delta 1
        = (none, { start := f.start, size := f.size, offset := f.offset + (delta : Int) }))
    ∧ (in_int f.size → in_int (f.size + (delta : Int)) →
      memseek f delta 2
        = (none, { start := f.start,
                   size := if delta > 0 then f.size + (delta : Int) else f.size,
                   offset := f.size + (delta : Int) })) := by
  refine ⟨?_, ?_, ?_⟩
  · intro h
    have e : to_int delta = (delta : Int) := by
      have := to_int_to_unsigned_add 0 delta (by simpa using h)
      simpa [to_unsigned] using this
    simp only [memseek, if_true, e]
  · intro h
    simp only [memseek, if_true, to_int_to_unsigned_add f.offset delta h]
    rfl
  · intro hs h
    have hlt : delta < 4294967296 := by
      unfold in_int at hs h
      omega
    simp only [memseek, to_int_to_unsigned_add f.size delta h, Nat.mod_eq_of_lt hlt]
    by_cases hd : delta > 0
    · simp [hd]
    · have h0 : delta = 0 := by omega
      subst h0
      simp

/-- Witness for C12: seeking to 2, forward by 2 and 2 past the end on a 5-byte stream with
the cursor at 3. -/
theorem C12_seek_semantics_witness :
    memseek short_stream 2 0 = (none, { start := [1, 2, 3, 4, 5], size := 5, offset := 2 })
      ∧ memseek short_stream 2 1
          = (none, { start := [1, 2, 3, 4, 5], size := 5, offset := 5 })
      ∧ memseek short_stream 2 2
          = (none, { start := [1, 2, 3, 4, 5], size := 7, offset := 7 })
      ∧ memseek short_stream 0 2
          = (none, { start := [1, 2, 3, 4, 5], size := 5, offset := 5 }) :=
  ⟨(C12_seek_semantics short_stream 2).1 (by decide),
    (C12_seek_semantics short_stream 2).2.1 (by decide),
    (C12_seek_semantics short_stream 2).2.2 (by decide) (by decide),
    (C12_seek_semantics short_stream 0).2.2 (by decide) (by decide)⟩

/-- Counterexample to C12 as stated: the delta -1 reaches the `unsigned int` parameter as
4294967295, so in mode 2 on a stream of size 5 the test `offset > 0` of line 171 holds and
size becomes the new offset 4 instead of staying 5. -/
theorem C12_counterexample :
    to_unsigned (-1) = 4294967295
      ∧ short_stream.size = 5
      ∧ (memseek short_stream (to_unsigned (-1)) 2).2.offset = short_stream.size + (-1)
      ∧ (memseek short_stream (to_unsigned (-1)) 2).2.size = 4
      ∧ (memseek short_stream (to_unsigned (-1)) 2).2.size ≠ short_stream.size := by
  decide

/-- Claim C13: for every stream and every `whence` outside {0, 1, 2}, `memseek` returns -1
and leaves offset, size and buffer unchanged. -/
theorem C13_invalid_seek_mode (f : memblk) (offset : Nat) (whence : Int)
    (h0 : whence ≠ 0) (h1 : whence ≠ 1) (h2 : whence ≠ 2) :
    memseek f offset whence = (some (-1), f) := by
  unfold memseek
  rw [if_neg h0, if_neg h1, if_neg h2]

/-- Witness for C13: modes 3 and -1 on the 5-byte stream. -/
theorem C13_invalid_seek_mode_witness :
    memseek short_stream 7 3 = (some (-1), short_stream)
      ∧ memseek short_stream 7 (-1) = (some (-1), short_stream) :=
  ⟨C13_invalid_seek_mode short_stream 7 3 (by decide) (by decide) (by decide),
    C13_invalid_seek_mode short_stream 7 (-1) (by decide) (by decide) (by decide)⟩

/-! ## Dequantizer -/

theorem expand5_shift : ∀ v, v < 32 → v * 255 / 31 / 8 = v := by decide

theorem expand6_shift : ∀ v, v < 64 → v * 255 / 63 / 4 = v := by decide

/-- Claim C19: for every 16-bit code `c`, `from565_r(c)`, `from565_g(c)` and `from565_b(c)`
lie in 0..255 and `to565` of the three gives `c` back. -/
theorem C19_dequantize_right_inverse (c : Nat) (hc : c ≤ 65535) :
    from565_r c ≤ 255 ∧ from565_g c ≤ 255 ∧ from565_b c ≤ 255
      ∧ to565 (from565_r c) (from565_g c) (from565_b c) = c := by
  have h63 : (0x3f : Nat) = 2 ^ 6 - 1 := by norm_num
  have h31 : (0x1f : Nat) = 2 ^ 5 - 1 := by norm_num
  have er : from565_r c = c / 2048 % 32 * 255 / 31 := by
    unfold from565_r
    rw [h31, Nat.and_pow_two_sub_one_eq_mod, Nat.shiftRight_eq_div_pow]
  have eg : from565_g c = c / 32 % 64 * 255 / 63 := by
    unfold from565_g
    rw [h63, Nat.and_pow_two_sub_one_eq_mod, Nat.shiftRight_eq_div_pow]
  have eb : from565_b c = c % 32 * 255 / 31 := by
    unfold from565_b
    rw [h31, Nat.and_pow_two_sub_one_eq_mod]
  have hr : from565_r c ≤ 255 := by rw [er]; omega
  have hg : from565_g c ≤ 255 := by rw [eg]; omega
  have hb : from565_b c ≤ 255 := by rw [eb]; omega
  refine ⟨hr, hg, hb, ?_⟩
  rw [to565_eq _ _ _ (by omega) (by omega), er, eg, eb]
  rw [expand5_shift (c / 2048 % 32) (Nat.mod_lt _ (by decide)),
    expand6_shift (c / 32 % 64) (Nat.mod_lt _ (by decide)),
    expand5_shift (c % 32) (Nat.mod_lt _ (by decide))]
  clear hr hg hb er eg eb h63 h31
  omega

/-- Witness for C19: the code 0xFC1F decodes to (255, 129, 255) and encodes back. -/
theorem C19_dequantize_right_inverse_witness :
    (64543 : Nat) ≤ 65535
      ∧ (from565_r 64543 = 255 ∧ from565_g 64543 = 129 ∧ from565_b 64543 = 255)
      ∧ (from565_r 64543 ≤ 255 ∧ from565_g 64543 ≤ 255 ∧ from565_b 64543 ≤ 255
        ∧ to565 (from565_r 64543) (from565_g 64543) (from565_b 64543) = 64543) :=
  ⟨by decide, by decide, C19_dequantize_right_inverse 64543 (by decide)⟩

/-! ## Writing -/

theorem memwrite_general (p data : List Nat) (s o : Nat) (ho : o ≤ s)
    (hmax : (s : Int) + (data.length : Int) ≤ 2147483647) :
    memwrite { start := p, size := (s : Int), offset := (o : Int) } data (data.length : Int)
      = some ((data.length : Int),
          { start :=
              (p.take (s + data.length)
                  ++ List.replicate (s + data.length - p.length) 0).take o
                ++ data
                ++ (p.take (s + data.length)
                  ++ List.replicate (s + data.length - p.length) 0).drop (o + data.length),
            size := (s : Int) + (data.length : Int),
            offset := (o : Int) + (data.length : Int) }) := by
  unfold memwrite
  simp only
  rw [if_neg (by simp only [in_int, not_not]; omega)]
  have hre : realloc p ((data.length : Int) + (s : Int))
      = some (p.take (s + data.length)
          ++ List.replicate (s + data.length - p.length) 0) := by
    unfold realloc
    rw [if_neg (by omega)]
    have h1 : ((data.length : Int) + (s : Int)).toNat = s + data.length := by omega
    rw [h1]
  rw [hre]
  simp only
  rw [if_neg (by omega)]
  have ht : List.take (data.length : Int).toNat data = data := by
    apply List.take_of_length_le; simp
  rw [ht]
  unfold store_bytes
  rw [if_pos (by
    refine ⟨by omega, ?_⟩
    simp only [List.length_append, List.length_take, List.length_replicate]
    omega)]
  simp only [Int.toNat_ofNat]
  rw [if_pos (by simp only [in_int]; omega)]

/-- Claim C11: for every stream with `0 <= offset <= size`, `size` the buffer length, and
every data of length `count`, a `memwrite` that returns is successful: it returns `count`,
makes buffer length and size `old size + count`, sets offset to `old offset + count`,
stores the data at `[old offset, old offset + count)` and leaves every other byte below
the old size unchanged; when `offset = size` the new buffer is the old one with the data
appended.  It returns whenever `old size + count` is an `int`. -/
theorem C11_write_post_state (f : memblk) (data : List Nat) (h0 : 0 ≤ f.offset)
    (hoff : f.offset ≤ f.size) (hsize : f.size = (f.start.length : Int)) :
    (∀ r g, memwrite f data (data.length : Int) = some (r, g) →
      r = (data.length : Int)
        ∧ (g.start.length : Int) = f.size + (data.length : Int)
        ∧ g.size = f.size + (data.length : Int)
        ∧ g.offset = f.offset + (data.length : Int)
        ∧ (∀ i, i < data.length → g.start.get? (f.offset.toNat + i) = data.get? i)
        ∧ (∀ i, i < f.start.length → (i < f.offset.toNat ∨ f.offset.toNat + data.length ≤ i) →
            g.start.get? i = f.start.get? i)
        ∧ (f.offset = f.size → g.start = f.start ++ data))
    ∧ (f.size + (data.length : Int) ≤ 2147483647 →
        ∃ r g, memwrite f data (data.length : Int) = some (r, g)) := by
  obtain ⟨p, S, off⟩ := f
  simp only at h0 hoff hsize
  obtain ⟨o, rfl⟩ := Int.eq_ofNat_of_zero_le h0
  subst hsize
  have ho : o ≤ p.length := by omega
  by_cases hmax : (p.length : Int) + (data.length : Int) ≤ 2147483647
  · have hw := memwrite_general p data p.length o ho hmax
    have hq : p.take (p.length + data.length)
        ++ List.replicate (p.length + data.length - p.length) 0
        = p ++ List.replicate data.length 0 := by
      rw [List.take_of_length_le (by omega)]
      congr 2
      omega
    rw [hq] at hw
    refine ⟨?_, fun _ => ⟨_, _, hw⟩⟩
    intro r g hg
    rw [hw] at hg
    simp only [Option.some.injEq, Prod.mk.injEq] at hg
    obtain ⟨hr, hg⟩ := hg
    subst hr hg
    simp only [Int.toNat_ofNat]
    have htake : (p ++ List.replicate data.length 0).take o = p.take o := by
      rw [List.take_append_of_le_length ho]
    refine ⟨trivial, ?_, trivial, trivial, ?_, ?_, ?_⟩
    · simp only [List.length_append, List.length_take, List.length_drop,
        List.length_replicate]
      omega
    · intro i hi
      rw [htake, List.append_assoc, List.get?_eq_getElem?, List.get?_eq_getElem?,
        List.getElem?_append_right (by simp only [List.length_take]; omega)]
      have e : o + i - (p.take o).length = i := by
        simp only [List.length_take]; omega
      rw [e, List.getElem?_append_left hi]
    · intro i hi hcase
      rw [htake, List.get?_eq_getElem?, List.get?_eq_getElem?]
      rcases hcase with hlt | hge
      · rw [List.append_assoc, List.getElem?_append_left (by
          simp only [List.length_take]; omega), List.getElem?_take_of_lt hlt]
      · rw [List.getElem?_append_right (by
          simp only [List.length_append, List.length_take]; omega)]
        rw [List.getElem?_drop]
        have e : o + data.length + (i - (p.take o ++ data).length) = i := by
          simp only [List.length_append, List.length_take]; omega
        rw [e, List.getElem?_append_left hi]
    · intro heq
      have ho2 : o = p.length := by omega
      subst ho2
      rw [htake, List.take_length, List.drop_of_length_le (by simp), List.append_nil]
  · refine ⟨?_, fun h => absurd h hmax⟩
    intro r g hg
    rw [memwrite_overflow _ _ _ (by simp only [in_int]; omega)] at hg
    simp at hg

/-- Witness for C11: writing `[8, 9]` at offset 3 of the 5-byte stream. -/
theorem C11_write_post_state_witness :
    0 ≤ short_stream.offset ∧ short_stream.offset ≤ short_stream.size
      ∧ short_stream.size = (short_stream.start.length : Int)
      ∧ memwrite short_stream [8, 9] 2
          = some (2, { start := [1, 2, 3, 8, 9, 0, 0], size := 7, offset := 5 })
      ∧ ∃ r g, memwrite short_stream [8, 9] (([8, 9] : List Nat).length : Int)
          = some (r, g) :=
  ⟨by decide, by decide, by decide, by decide,
    (C11_write_post_state short_stream [8, 9] (by decide) (by decide) (by decide)).2
      (by decide)⟩

theorem memseek_from_end (f : memblk) (delta : Nat) (hs : in_int f.size)
    (h : in_int (f.size + (delta : Int))) :
    (memseek f delta 2).2
      = { start := f.start,
          size := if delta > 0 then f.size + (delta : Int) else f.size,
          offset := f.size + (delta : Int) } := by
  have hlt : delta < 4294967296 := by
    unfold in_int at hs h
    omega
  simp only [memseek, to_int_to_unsigned_add f.size delta h, Nat.mod_eq_of_lt hlt]
  by_cases hd : delta > 0
  · simp [hd]
  · have h0 : delta = 0 := by omega
    subst h0
    simp

/-- Claim C16 (amended): for every stream whose size `s` is its buffer length, every `d > 0`
and every `n` bytes with `s + d + n <= 2 ^ 31 - 1`, after `memseek` with mode 2 and `d` a
`memwrite` of the `n` bytes returns `n`, places the data at `[s+d, s+d+n)`, leaves the
first `s` bytes unchanged and ends with `size = offset = buffer length = s + d + n`. -/
theorem C16_seek_past_end_then_write (f : memblk) (d : Nat) (data : List Nat)
    (hsize : f.size = (f.start.length : Int)) (hd : 0 < d)
    (hint : f.size + (d : Int) + (data.length : Int) ≤ 2147483647) :
    ∃ g, memwrite (memseek f d 2).2 data (data.length : Int) = some ((data.length : Int), g)
      ∧ g.start.drop (f.start.length + d) = data
      ∧ g.start.take f.start.length = f.start
      ∧ g.size = f.size + (d : Int) + (data.length : Int)
      ∧ g.offset = f.size + (d : Int) + (data.length : Int)
      ∧ (g.start.length : Int) = f.size + (d : Int) + (data.length : Int) := by
  obtain ⟨p, S, off⟩ := f
  simp only at hsize hint
  subst hsize
  have hseek : (memseek { start := p, size := (p.length : Int), offset := off } d 2).2
      = { start := p, size := ((p.length + d : Nat) : Int),
          offset := ((p.length + d : Nat) : Int) } := by
    have h := (memseek_from_end { start := p, size := (p.length : Int), offset := off } d
      (by simp only [in_int]; omega) (by simp only [in_int]; omega))
    rw [h]
    simp only [hd, if_true]
    push_cast
    rfl
  rw [hseek]
  have hw := memwrite_general p data (p.length + d) (p.length + d) (le_refl _)
    (by push_cast; omega)
  have hq : p.take (p.length + d + data.length)
      ++ List.replicate (p.length + d + data.length - p.length) 0
      = p ++ List.replicate (d + data.length) 0 := by
    rw [List.take_of_length_le (by omega)]
    congr 2
    omega
  rw [hq] at hw
  refine ⟨_, hw, ?_, ?_, ?_, ?_, ?_⟩
  · simp only
    have hl : ((p ++ List.replicate (d + data.length) 0).take (p.length + d)).length
        = p.length + d := by
      simp only [List.length_take, List.length_append, List.length_replicate]
      omega
    rw [List.append_assoc, List.drop_left' hl, List.drop_of_length_le (by simp; omega),
      List.append_nil]
  · simp only
    rw [List.append_assoc, List.take_append_of_le_length (by
      simp only [List.length_take, List.length_append, List.length_replicate]
      omega)]
    rw [List.take_take, Nat.min_eq_left (by omega), List.take_left]
  · simp only
    push_cast
    ring
  · simp only
    push_cast
    ring
  · simp only [List.length_append, List.length_take, List.length_drop,
      List.length_replicate]
    push_cast
    omega

/-- Witness for C16: seeking 2 past the end of the 5-byte stream and writing `[8, 9]`. -/
theorem C16_seek_past_end_then_write_witness :
    short_stream.size = (short_stream.start.length : Int) ∧ 0 < 2
      ∧ memwrite (memseek short_stream 2 2).2 [8, 9] 2
          = some (2, { start := [1, 2, 3, 4, 5, 0, 0, 8, 9], size := 9, offset := 9 })
      ∧ ∃ g, memwrite (memseek short_stream 2 2).2 [8, 9] (([8, 9] : List Nat).length : Int)
            = some ((([8, 9] : List Nat).length : Int), g)
          ∧ g.start.drop (short_stream.start.length + 2) = [8, 9]
          ∧ g.start.take short_stream.start.length = short_stream.start
          ∧ g.size = short_stream.size + ((2 : Nat) : Int) + (([8, 9] : List Nat).length : Int)
          ∧ g.offset
              = short_stream.size + ((2 : Nat) : Int) + (([8, 9] : List Nat).length : Int)
          ∧ (g.start.length : Int)
              = short_stream.size + ((2 : Nat) : Int) + (([8, 9] : List Nat).length : Int) :=
  ⟨by decide, by decide, by decide,
    C16_seek_past_end_then_write short_stream 2 [8, 9] (by decide) (by decide) (by decide)⟩

/-- Counterexample to C16 as stated: on the 5-byte stream, `memseek` in mode 2 with
`d = 4294967295 > 0` computes `5 + d` in `unsigned int` and stores 4 in offset and size;
the `memwrite` of `[8, 9]` then returns 2, overwrites the fifth byte and ends with
`size = offset = 6`, not `5 + d + 2`. -/
theorem C16_counterexample :
    short_stream.size = (short_stream.start.length : Int) ∧ 0 < 4294967295
      ∧ (memseek short_stream 4294967295 2).2
          = { start := [1, 2, 3, 4, 5], size := 4, offset := 4 }
      ∧ memwrite (memseek short_stream 4294967295 2).2 [8, 9] 2
          = some (2, { start := [1, 2, 3, 4, 8, 9], size := 6, offset := 6 })
      ∧ ([1, 2, 3, 4, 8, 9] : List Nat).take short_stream.start.length ≠ short_stream.start
      ∧ (6 : Int) ≠ short_stream.size + 4294967295 + 2 := by
  decide

/-! ## Decoding the records -/

theorem rle_expand_runs (cs : List Nat) :
    ∀ (last count : Nat), count ≤ 65535 →
      rle_expand (rle_runs cs last count) = List.replicate count last ++ cs := by
  induction cs with
  | nil =>
    intro last count _
    by_cases hc : count = 0
    · simp [rle_runs, hc, rle_expand]
    · simp [rle_runs, hc, rle_expand]
  | cons c cs ih =>
    intro last count hle
    unfold rle_runs
    by_cases hc : count = 0
    · simp only [hc, ne_eq, not_true_eq_false, if_false]
      rw [ih c 1 (by omega)]
      simp
    · simp only [hc, ne_eq, not_false_eq_true, if_true]
      by_cases hm : c = last ∧ ¬ count = 65535
      · simp only [hm, and_self, not_false_eq_true, if_true]
        have e : (count + 1) % 65536 = count + 1 := by omega
        rw [e, ih last (count + 1) (by omega), List.replicate_succ']
        simp
      · simp only [hm, if_false, rle_expand]
        rw [ih c 1 (by omega)]
        simp

theorem quantized_eq_pixel_codes :
    ∀ (mem : List Nat), (∀ x ∈ mem, x < 256) → quantized mem = pixel_codes mem
  | [], _ => rfl
  | [_], _ => by simp [quantized, pixel_codes]
  | [_, _], _ => by simp [quantized, pixel_codes]
  | r :: g :: b :: rest, h => by
    have hr : r < 256 := h r (by simp)
    have hg : g < 256 := h g (by simp)
    have hb : b < 256 := h b (by simp)
    have hlt : to565 r g b % 65536 = to565 r g b := by
      rw [to565_eq r g b hg hb]
      omega
    simp only [quantized, pixel_codes, hlt]
    rw [quantized_eq_pixel_codes rest (fun x hx => h x (by simp [hx]))]

theorem pixel_codes_replicate (x : Nat) :
    ∀ n, pixel_codes (List.replicate (3 * n) x) = List.replicate n (to565 x x x)
  | 0 => rfl
  | n + 1 => by
    have e : 3 * (n + 1) = (3 * n + 1 + 1) + 1 := by ring
    rw [e, List.replicate_succ, List.replicate_succ, List.replicate_succ, pixel_codes,
      pixel_codes_replicate x n, List.replicate_succ]

/-- Claim C17 (amended): for every RGB888 image with `4 * width * height < 2 ^ 31` whose
buffer holds exactly `width * height` pixels (of bytes), expanding the records emitted by
`convert_to_rle` in order, each colour code repeated run-length times, yields exactly the
sequence `to565(r,g,b)` of the input pixels in input order. -/
theorem C17_decodability (ini : image) (hfmt : ini.format = .IMG_RGB888)
    (hlen : ini.mem.length = 3 * (ini.width * ini.height))
    (hbytes : ∀ x ∈ ini.mem, x < 256)
    (hsize : 4 * (ini.width * ini.height) < 2147483648) :
    ∃ out, convert_to_rle ini = some (some out)
      ∧ rle_expand (rle_records out.mem) = pixel_codes ini.mem := by
  refine ⟨_, convert_to_rle_spec ini hfmt hlen (by omega) (runs_bound ini hlen hsize), ?_⟩
  simp only
  rw [rle_records_record_bytes _
    (rle_runs_valid _ 0 0 (by omega) (by omega) (quantized_le _)),
    rle_expand_runs _ 0 0 (by omega), quantized_eq_pixel_codes _ hbytes]
  simp

/-- Witness for C17: the 2 x 2 sample image decodes to its four colour codes. -/
theorem C17_decodability_witness :
    sample_rgb.format = .IMG_RGB888
      ∧ sample_rgb.mem.length = 3 * (sample_rgb.width * sample_rgb.height)
      ∧ (∀ x ∈ sample_rgb.mem, x < 256)
      ∧ 4 * (sample_rgb.width * sample_rgb.height) < 2147483648
      ∧ pixel_codes sample_rgb.mem = [63488, 63488, 31, 31]
      ∧ ∃ out, convert_to_rle sample_rgb = some (some out)
          ∧ rle_expand (rle_records out.mem) = pixel_codes sample_rgb.mem :=
  ⟨rfl, rfl, by decide, by decide, by decide,
    C17_decodability sample_rgb rfl rfl (by decide) (by decide)⟩

/-- Counterexample to C17 as stated: the 65536 x 65536 image holds `2 ^ 32` pixels of code 0,
`convert_to_rle` emits no record because `height * width * 3` is 0 in `unsigned int`, and
the expansion of no record is empty. -/
theorem C17_counterexample :
    huge_rgb.format = .IMG_RGB888
      ∧ huge_rgb.mem.length = 3 * (huge_rgb.width * huge_rgb.height)
      ∧ (∀ x ∈ huge_rgb.mem, x < 256)
      ∧ convert_to_rle huge_rgb = some (some empty_rle)
      ∧ rle_expand (rle_records empty_rle.mem) = []
      ∧ (pixel_codes huge_rgb.mem).length = 4294967296
      ∧ rle_expand (rle_records empty_rle.mem) ≠ pixel_codes huge_rgb.mem := by
  have hcodes : pixel_codes huge_rgb.mem = List.replicate (65536 * 65536) (to565 0 0 0) := by
    rw [show huge_rgb.mem = List.replicate (3 * (65536 * 65536)) 0 from rfl,
      pixel_codes_replicate 0 (65536 * 65536)]
  have hlen : (pixel_codes huge_rgb.mem).length = 4294967296 := by
    rw [hcodes, List.length_replicate]
  refine ⟨rfl, List.length_replicate _ _, ?_,
    convert_to_rle_empty huge_rgb rfl (by decide), rfl, hlen, ?_⟩
  · intro x hx
    rw [show huge_rgb.mem = List.replicate (3 * (65536 * 65536)) 0 from rfl] at hx
    rw [List.eq_of_mem_replicate hx]
    decide
  · intro h
    have hl := congrArg List.length h
    rw [hlen] at hl
    have e0 : (rle_expand (rle_records empty_rle.mem)).length = 0 := rfl
    omega

/-! ## Run maximality -/

theorem runs_maximal_append_one (a b : Nat × Nat) (h : a.2 = b.2 → a.1 = 65535) :
    ∀ (xs : List (Nat × Nat)), runs_maximal (xs ++ [a]) → runs_maximal (xs ++ [a] ++ [b])
  | [], _ => ⟨h, trivial⟩
  | [_], hx => ⟨hx.1, h, trivial⟩
  | _ :: y :: ys, hx => ⟨hx.1, runs_maximal_append_one a b h (y :: ys) hx.2⟩

theorem runs_maximal_relabel (n k c : Nat) :
    ∀ (xs : List (Nat × Nat)), runs_maximal (xs ++ [(n, c)]) → runs_maximal (xs ++ [(k, c)])
  | [], _ => trivial
  | [_], hx => ⟨hx.1, trivial⟩
  | _ :: y :: ys, hx => ⟨hx.1, runs_maximal_relabel n k c (y :: ys) hx.2⟩

theorem runs_maximal_get :
    ∀ (rs : List (Nat × Nat)), runs_maximal rs →
      ∀ (i : Nat) (a b : Nat × Nat), rs.get? i = some a → rs.get? (i + 1) = some b →
        a.2 = b.2 → a.1 = 65535
  | [], _, i, a, b, ha, _, _ => by simp at ha
  | [_], _, i, a, b, _, hb, _ => by
    cases i <;> simp at hb
  | x :: y :: ys, h, 0, a, b, ha, hb, hab => by
    simp only [List.get?_cons_zero, List.get?_cons_succ, Option.some.injEq] at ha hb
    subst ha hb
    exact h.1 hab
  | x :: y :: ys, h, i + 1, a, b, ha, hb, hab =>
    runs_maximal_get (y :: ys) h.2 i a b ha hb hab

theorem write_record_holds (o o2 : memblk) (rs : List (Nat × Nat)) (count last : Nat)
    (ho : out_holds o rs) (h1 : 1 ≤ count) (hc : count ≤ 65535) (hl : last ≤ 65535)
    (hw : write_record o count last = some o2) : out_holds o2 (rs ++ [(count, last)]) := by
  obtain ⟨hrs, hval, hsz, hoff, _⟩ := ho
  obtain ⟨p, S, off⟩ := o
  simp only at hrs hsz hoff
  rw [hoff] at hw
  by_cases hb : S + 4 ≤ 2147483647
  · rw [write_record_append p S count last hsz hb] at hw
    injection hw with hw
    subst hw
    refine ⟨?_, ?_, ?_, rfl, hb⟩
    · simp only [record_bytes_append, hrs]
    · intro rec hrec
      rcases List.mem_append.mp hrec with h | h
      · exact hval rec h
      · rw [List.mem_singleton] at h
        subst h
        exact ⟨h1, hc, hl⟩
    · simp only [hsz, le16, List.length_append, List.length_cons, List.length_nil]
      push_cast; ring
  · exfalso
    unfold write_record at hw
    by_cases hb2 : S + 2 ≤ 2147483647
    · have h2 := memwrite_append p (le16 count) S 2 hsz rfl (by push_cast; omega)
      push_cast at h2
      rw [h2] at hw
      simp only at hw
      rw [memwrite_overflow _ _ _ (by simp only [in_int]; omega)] at hw
      simp at hw
    · rw [memwrite_overflow _ _ _ (by simp only [in_int]; omega)] at hw
      simp at hw

theorem loop_maximal (fuel : Nat) :
    ∀ (m outfd : memblk) (last count total : Nat)
      (res : memblk × memblk × Nat × Nat × Nat) (rs : List (Nat × Nat)),
      out_holds outfd rs → count ≤ 65535 → last ≤ 65535 →
      runs_maximal (rs ++ pending last count) → (count = 0 → rs = []) →
      convert_to_rle_loop fuel m outfd last count total = some res →
      ∃ rs1, out_holds res.2.1 rs1 ∧ res.2.2.1 ≤ 65535 ∧ res.2.2.2.1 ≤ 65535
        ∧ runs_maximal (rs1 ++ pending res.2.2.1 res.2.2.2.1)
        ∧ (res.2.2.2.1 = 0 → rs1 = []) := by
  induction fuel with
  | zero =>
    intro m outfd last count total res rs _ _ _ _ _ h
    simp [convert_to_rle_loop] at h
  | succ fuel ih =>
    intro m outfd last count total res rs ho hc hl hmax hzero h
    unfold convert_to_rle_loop at h
    cases hr : memread m 3 with
    | none => rw [hr] at h; simp at h
    | some v =>
      obtain ⟨r, inb, m1⟩ := v
      rw [hr] at h
      simp only at h
      by_cases h3 : r = 3
      · simp only [h3, if_true] at h
        by_cases h0 : count = 0
        · simp only [h0, ne_eq, not_true_eq_false, if_false] at h
          have hrs : rs = [] := hzero h0
          subst hrs
          exact ih _ _ _ _ _ res [] ho (by omega) (by omega)
            (by simp [pending, runs_maximal]) (by omega) h
        · simp only [h0, ne_eq, not_false_eq_true, if_true] at h
          have hp : pending last count = [(count, last)] := by simp [pending, h0]
          rw [hp] at hmax
          by_cases hm : to565 (inb.getD 0 0) (inb.getD 1 0) (inb.getD 2 0) % 65536 = last
              ∧ ¬ count = 65535
          · simp only [hm, and_self, not_false_eq_true, if_true] at h
            have e : (count + 1) % 65536 = count + 1 := by omega
            rw [e] at h
            refine ih _ _ _ _ _ res rs ho (by omega) hl ?_ (by omega) h
            have hp1 : pending last (count + 1) = [(count + 1, last)] := by simp [pending]
            rw [hp1]
            exact runs_maximal_relabel count (count + 1) last rs hmax
          · simp only [hm, if_false] at h
            cases hw : write_record outfd count last with
            | none => rw [hw] at h; simp at h
            | some o2 =>
              rw [hw] at h
              simp only at h
              refine ih _ _ _ _ _ res (rs ++ [(count, last)])
                (write_record_holds outfd o2 rs count last ho (by omega) hc hl hw)
                (by omega) (by omega) ?_ (by omega) h
              have hp1 : pending (to565 (inb.getD 0 0) (inb.getD 1 0) (inb.getD 2 0) % 65536) 1
                  = [(1, to565 (inb.getD 0 0) (inb.getD 1 0) (inb.getD 2 0) % 65536)] := by
                simp [pending]
              rw [hp1]
              refine runs_maximal_append_one _ _ ?_ rs hmax
              intro hcol
              simp only at hcol
              by_contra hne
              exact hm ⟨hcol.symm, hne⟩
      · simp only [h3, if_false] at h
        injection h with h
        subst h
        exact ⟨rs, ho, hl, hc, hmax, hzero⟩

theorem convert_to_rle_maximal (ini out : image)
    (h : convert_to_rle ini = some (some out)) : runs_maximal (rle_records out.mem) := by
  unfold convert_to_rle at h
  by_cases hf : ini.format = .IMG_RGB888
  · simp only [hf, ne_eq, not_true_eq_false, if_false] at h
    cases hm : memopen_image ini with
    | none => rw [hm] at h; simp at h
    | some m =>
      rw [hm] at h
      simp only at h
      cases hl : convert_to_rle_loop (m.size.toNat + 1) m (memopen [] 0) 0 0 0 with
      | none => rw [hl] at h; simp at h
      | some res =>
        obtain ⟨m1, outfd, last, count, total⟩ := res
        rw [hl] at h
        simp only at h
        have hinit : out_holds (memopen [] 0) [] :=
          ⟨rfl, by simp, by simp [memopen], by simp [memopen], by simp [memopen]⟩
        obtain ⟨rs1, ho, hlast, hcount, hmax, _⟩ :=
          loop_maximal _ m (memopen [] 0) 0 0 0 _ [] hinit (by omega) (by omega)
            (by simp [pending, runs_maximal]) (fun _ => rfl) hl
        simp only at ho hlast hcount hmax
        have hfin : ∀ o, (if count ≠ 0 then write_record outfd count last else some outfd)
            = some o → out_holds o (rs1 ++ pending last count) := by
          intro o hw
          by_cases h0 : count = 0
          · simp only [h0, ne_eq, not_true_eq_false, if_false] at hw
            injection hw with hw
            subst hw
            simpa [pending, h0] using ho
          · simp only [h0, ne_eq, not_false_eq_true, if_true] at hw
            have hp : pending last count = [(count, last)] := by simp [pending, h0]
            rw [hp]
            exact write_record_holds outfd o rs1 count last ho (by omega) hcount hlast hw
        cases hw : (if count ≠ 0 then write_record outfd count last else some outfd) with
        | none => rw [hw] at h; simp at h
        | some o =>
          rw [hw] at h
          simp only at h
          injection h with h
          injection h with h
          subst h
          obtain ⟨hrs, hval, _, _, _⟩ := hfin o hw
          simp only
          rw [hrs, rle_records_record_bytes _ hval]
          exact hmax
  · simp only [hf, ne_eq, not_false_eq_true, if_true] at h
    injection h with h
    simp at h

/-- Claim C15: in the records of any image `convert_to_rle` produces for an RGB888 input,
whenever two consecutive records carry the same colour code the earlier has run length
65535; equivalently a record with run length below 65535 that is not the last is followed
by a record of a different colour.  Such an image is produced whenever the buffer holds
exactly `width * height` pixels and `4 * width * height < 2 ^ 31`. -/
theorem C15_run_maximality (ini : image) (hfmt : ini.format = .IMG_RGB888) :
    (∀ out, convert_to_rle ini = some (some out) →
      (∀ (i : Nat) (a b : Nat × Nat), (rle_records out.mem).get? i = some a →
          (rle_records out.mem).get? (i + 1) = some b → a.2 = b.2 → a.1 = 65535)
        ∧ (∀ (i : Nat) (a b : Nat × Nat), (rle_records out.mem).get? i = some a →
          (rle_records out.mem).get? (i + 1) = some b → a.1 < 65535 → a.2 ≠ b.2))
    ∧ (ini.mem.length = 3 * (ini.width * ini.height) →
        4 * (ini.width * ini.height) < 2147483648 →
        ∃ out, convert_to_rle ini = some (some out)) := by
  constructor
  · intro out hrun
    have hmax := runs_maximal_get _ (convert_to_rle_maximal ini out hrun)
    refine ⟨hmax, ?_⟩
    intro i a b ha hb hlt hcol
    have := hmax i a b ha hb hcol
    omega
  · intro hlen hsize
    exact ⟨_, convert_to_rle_spec ini hfmt hlen (by omega) (runs_bound ini hlen hsize)⟩

/-- Witness for C15: the two records of the 2 x 2 sample differ in colour. -/
theorem C15_run_maximality_witness :
    sample_rgb.format = .IMG_RGB888
      ∧ convert_to_rle sample_rgb = some (some sample_rle)
      ∧ rle_records sample_rle.mem = [(2, 63488), (2, 31)]
      ∧ (∀ (i : Nat) (a b : Nat × Nat), (rle_records sample_rle.mem).get? i = some a →
          (rle_records sample_rle.mem).get? (i + 1) = some b → a.2 = b.2 → a.1 = 65535)
      ∧ (∀ (i : Nat) (a b : Nat × Nat), (rle_records sample_rle.mem).get? i = some a →
          (rle_records sample_rle.mem).get? (i + 1) = some b → a.1 < 65535 → a.2 ≠ b.2) :=
  ⟨rfl, by decide, by decide,
    (C15_run_maximality sample_rgb rfl).1 sample_rle (by decide)⟩

/-! ## The cursor stays non-negative -/

theorem memread_nonneg (f g : memblk) (count r : Int) (data : List Nat)
    (h0 : 0 ≤ f.offset) (h : memread f count = some (r, data, g)) :
    0 ≤ g.offset ∧ g.size = f.size := by
  unfold memread at h
  by_cases he : f.offset ≥ f.size
  · rw [if_pos he] at h
    simp only [Option.some.injEq, Prod.mk.injEq] at h
    obtain ⟨_, _, hg⟩ := h
    subst hg
    exact ⟨h0, rfl⟩
  · rw [if_neg he] at h
    by_cases h1 : ¬ (in_int (count + f.offset) ∧ in_int (memread_len f count)
        ∧ in_int (f.offset + memread_len f count))
    · rw [if_pos h1] at h
      simp at h
    · rw [if_neg h1] at h
      cases hl : load_bytes f.start f.offset (memread_len f count) with
      | none => rw [hl] at h; simp at h
      | some d =>
        rw [hl] at h
        simp only [Option.some.injEq, Prod.mk.injEq] at h
        obtain ⟨_, _, hg⟩ := h
        subst hg
        have hlen : 0 ≤ memread_len f count := by
          unfold load_bytes at hl
          by_cases hc : 0 ≤ f.offset ∧ 0 ≤ memread_len f count
              ∧ f.offset + memread_len f count ≤ (f.start.length : Int)
          · exact hc.2.1
          · rw [if_neg hc] at hl
            simp at hl
        exact ⟨by simp only; omega, rfl⟩

theorem memwrite_nonneg (f g : memblk) (data : List Nat) (n r : Int)
    (h0 : 0 ≤ f.offset) (hs : 0 ≤ f.size) (h : memwrite f data n = some (r, g)) :
    0 ≤ g.offset ∧ 0 ≤ g.size := by
  unfold memwrite at h
  by_cases h1 : ¬ in_int (n + f.size)
  · rw [if_pos h1] at h
    simp at h
  · rw [if_neg h1] at h
    cases hre : realloc f.start (n + f.size) with
    | none =>
      rw [hre] at h
      simp only [Option.some.injEq, Prod.mk.injEq] at h
      obtain ⟨_, hg⟩ := h
      subst hg
      exact ⟨h0, hs⟩
    | some p =>
      rw [hre] at h
      simp only at h
      by_cases h2 : n < 0 ∨ (data.length : Int) < n
      · rw [if_pos h2] at h
        simp at h
      · rw [if_neg h2] at h
        cases hst : store_bytes p f.offset (List.take n.toNat data) with
        | none => rw [hst] at h; simp at h
        | some q =>
          rw [hst] at h
          simp only at h
          by_cases h3 : in_int (f.offset + n)
          · rw [if_pos h3] at h
            simp only [Option.some.injEq, Prod.mk.injEq] at h
            obtain ⟨_, hg⟩ := h
            subst hg
            simp only
            omega
          · rw [if_neg h3] at h
            simp at h

theorem memseek_nonneg (f : memblk) (delta : Nat) (whence : Int)
    (h0 : 0 ≤ f.offset) (hs : 0 ≤ f.size) (hr : seek_in_range f delta whence = true) :
    0 ≤ (memseek f delta whence).2.offset ∧ 0 ≤ (memseek f delta whence).2.size := by
  unfold seek_in_range at hr
  unfold memseek
  by_cases w0 : whence = 0
  · rw [if_pos w0] at hr ⊢
    have hd : (delta : Int) ≤ 2147483647 := of_decide_eq_true hr
    have e := to_int_to_unsigned_add 0 delta (by simp only [in_int]; omega)
    simp only [to_unsigned, Int.zero_emod, Int.toNat_zero, Nat.zero_add, Int.zero_add] at e
    simp only [e]
    omega
  · rw [if_neg w0] at hr ⊢
    by_cases w1 : whence = 1
    · rw [if_pos w1] at hr ⊢
      have hd : f.offset + (delta : Int) ≤ 2147483647 := of_decide_eq_true hr
      rw [to_int_to_unsigned_add f.offset delta (by simp only [in_int]; omega)]
      simp only
      omega
    · rw [if_neg w1] at hr ⊢
      by_cases w2 : whence = 2
      · rw [if_pos w2] at hr ⊢
        have hd : f.size + (delta : Int) ≤ 2147483647 := of_decide_eq_true hr
        rw [to_int_to_unsigned_add f.size delta (by simp only [in_int]; omega)]
        split <;> simp only <;> omega
      · rw [if_neg w2]
        exact ⟨h0, hs⟩

theorem run_ops_nonneg (ops : List stream_op) :
    ∀ (f g : memblk), 0 ≤ f.offset → 0 ≤ f.size → seeks_in_range f ops = true →
      run_ops f ops = some g → 0 ≤ g.offset ∧ 0 ≤ g.size := by
  induction ops with
  | nil =>
    intro f g h0 hs _ h
    simp only [run_ops, Option.some.injEq] at h
    subst h
    exact ⟨h0, hs⟩
  | cons op ops ih =>
    intro f g h0 hs hr h
    unfold run_ops at h
    unfold seeks_in_range at hr
    rw [Bool.and_eq_true] at hr
    obtain ⟨hop, hrest⟩ := hr
    cases ha : apply_op f op with
    | none => rw [ha] at h; simp at h
    | some f1 =>
      rw [ha] at h hrest
      simp only at h hrest
      have hf1 : 0 ≤ f1.offset ∧ 0 ≤ f1.size := by
        cases op with
        | read count =>
          simp only [apply_op, Option.map_eq_some'] at ha
          obtain ⟨⟨r, data, g1⟩, hm, hg⟩ := ha
          simp only at hg
          subst hg
          have := memread_nonneg f g1 count r data h0 hm
          exact ⟨this.1, by rw [this.2]; exact hs⟩
        | write data =>
          simp only [apply_op, Option.map_eq_some'] at ha
          obtain ⟨⟨r, g1⟩, hm, hg⟩ := ha
          simp only at hg
          subst hg
          exact memwrite_nonneg f g1 data _ r h0 hs hm
        | seek delta whence =>
          simp only [apply_op, Option.some.injEq] at ha
          subst ha
          exact memseek_nonneg f delta whence h0 hs hop
      exact ih f1 g hf1.1 hf1.2 hrest h

/-- Claim C14 (amended): starting from a stream returned by `memopen` with `size >= 0`,
after any sequence of `memread`, `memwrite` and `memseek` calls none of which is undefined
and in which every `memseek` has a delta `>= 0` whose target position (`delta`,
`offset + delta`, `size + delta` in modes 0, 1, 2) is at most `2 ^ 31 - 1`, the stream's
offset satisfies `0 <= offset`. -/
theorem C14_cursor_non_negative (mem : List Nat) (size : Int) (ops : List stream_op)
    (g : memblk) (hsize : 0 ≤ size) (hseek : seeks_in_range (memopen mem size) ops = true)
    (hrun : run_ops (memopen mem size) ops = some g) : 0 ≤ g.offset :=
  (run_ops_nonneg ops (memopen mem size) g (le_refl _) hsize hseek hrun).1

/-- Witness for C14: the sample sequence on an empty stream ends with the cursor at 5. -/
theorem C14_cursor_non_negative_witness :
    (0 : Int) ≤ 0 ∧ seeks_in_range (memopen [] 0) sample_ops = true
      ∧ run_ops (memopen [] 0) sample_ops = some { start := [1, 2], size := 5, offset := 5 }
      ∧ (0 : Int) ≤ ({ start := [1, 2], size := 5, offset := 5 } : memblk).offset :=
  ⟨by decide, by decide, by decide,
    C14_cursor_non_negative [] 0 sample_ops _ (by decide) (by decide) (by decide)⟩

/-- Counterexample to C14 as stated: on the stream `memopen` returns over 3 bytes, one
`memseek` in mode 1 with delta -1 (4294967295 in the `unsigned int` parameter) leaves the
offset at -1. -/
theorem C14_counterexample :
    (memopen [1, 2, 3] 3).offset = 0 ∧ 0 ≤ (memopen [1, 2, 3] 3).size
      ∧ run_ops (memopen [1, 2, 3] 3) [.seek (to_unsigned (-1)) 1]
          = some { start := [1, 2, 3], size := 3, offset := -1 }
      ∧ ¬ (0 : Int) ≤ ({ start := [1, 2, 3], size := 3, offset := -1 } : memblk).offset := by
  decide

/-! ## Independence from the discarded bits -/

theorem get?_of_lt (l : List Nat) (i : Nat) (h : i < l.length) :
    l.get? i = some (l.getD i 0) := by
  simp [List.getElem?_eq_getElem h]

theorem codes_agree_refl (x : List Nat) : codes_agree x x := ⟨rfl, fun _ _ => rfl⟩

theorem codes_agree_set (x y : List Nat) (i va vb : Nat) (h : codes_agree x y)
    (hv : va >>> shift3 i = vb >>> shift3 i) : codes_agree (x.set i va) (y.set i vb) := by
  obtain ⟨hl, hi⟩ := h
  refine ⟨by simp only [List.length_set, hl], ?_⟩
  intro k hk
  simp only [List.length_set] at hk
  have hk2 : k < y.length := by omega
  simp only [List.getD_eq_getElem?_getD, List.getElem?_set]
  by_cases hik : i = k
  · subst hik
    simp only [if_true, if_pos hk, if_pos hk2, Option.getD_some]
    exact hv
  · simp only [if_neg hik]
    have := hi k hk
    simp only [List.getD_eq_getElem?_getD] at this
    exact this

theorem convert_to_rgb_loop_sim (ina inb : List Nat) (hin : rgba_agree ina inb) (k : Nat) :
    ∀ (j : Nat) (oa ob : List Nat), codes_agree oa ob →
      (convert_to_rgb_loop ina k j oa = none ∧ convert_to_rgb_loop inb k j ob = none)
        ∨ ∃ ra rb, convert_to_rgb_loop ina k j oa = some ra
            ∧ convert_to_rgb_loop inb k j ob = some rb ∧ codes_agree ra rb := by
  induction k with
  | zero =>
    intro j oa ob ho
    exact Or.inr ⟨oa, ob, rfl, rfl, ho⟩
  | succ k ih =>
    intro j oa ob ho
    rw [convert_to_rgb_loop_succ, convert_to_rgb_loop_succ]
    by_cases hc : ¬ (in_int ((j : Int) * 4 + 2) ∧ in_int ((j : Int) + 1))
    · rw [if_pos hc, if_pos hc]
      exact Or.inl ⟨rfl, rfl⟩
    · rw [if_neg hc, if_neg hc]
      obtain ⟨hlen, hval⟩ := hin
      by_cases hj : j * 4 + 2 < ina.length
      · have hjb : j * 4 + 2 < inb.length := by omega
        rw [get?_of_lt ina (j * 4 + 0) (by omega), get?_of_lt ina (j * 4 + 1) (by omega),
          get?_of_lt ina (j * 4 + 2) hj, get?_of_lt inb (j * 4 + 0) (by omega),
          get?_of_lt inb (j * 4 + 1) (by omega), get?_of_lt inb (j * 4 + 2) hjb]
        simp only
        by_cases ho2 : j * 3 + 2 < oa.length
        · have ho3 : j * 3 + 2 < ob.length := by rw [← ho.1]; exact ho2
          rw [if_pos ho2, if_pos ho3]
          apply ih
          have s0 : shift3 (j * 3 + 0) = 3 := by
            unfold shift3; rw [if_neg (by omega)]
          have s1 : shift3 (j * 3 + 1) = 2 := by
            unfold shift3; rw [if_pos (by omega)]
          have s2 : shift3 (j * 3 + 2) = 3 := by
            unfold shift3; rw [if_neg (by omega)]
          have q0 : shift4 (j * 4 + 0) = 3 := by
            unfold shift4; rw [if_neg (by omega)]
          have q1 : shift4 (j * 4 + 1) = 2 := by
            unfold shift4; rw [if_pos (by omega)]
          have q2 : shift4 (j * 4 + 2) = 3 := by
            unfold shift4; rw [if_neg (by omega)]
          have v0 := hval (j * 4 + 0) (by omega) (by omega)
          have v1 := hval (j * 4 + 1) (by omega) (by omega)
          have v2 := hval (j * 4 + 2) (by omega) (by omega)
          rw [q0] at v0
          rw [q1] at v1
          rw [q2] at v2
          refine codes_agree_set _ _ _ _ _ (codes_agree_set _ _ _ _ _
            (codes_agree_set _ _ _ _ _ ho ?_) ?_) ?_
          · rw [s0]; exact v0
          · rw [s1]; exact v1
          · rw [s2]; exact v2
        · have ho3 : ¬ j * 3 + 2 < ob.length := by rw [← ho.1]; exact ho2
          rw [if_neg ho2, if_neg ho3]
          exact Or.inl ⟨rfl, rfl⟩
      · have ha : ina.get? (j * 4 + 2) = none := List.get?_eq_none.mpr (by omega)
        have hb : inb.get? (j * 4 + 2) = none := List.get?_eq_none.mpr (by omega)
        rw [ha, hb]
        left
        constructor
        · cases ina.get? (j * 4 + 0) <;> cases ina.get? (j * 4 + 1) <;> rfl
        · cases inb.get? (j * 4 + 0) <;> cases inb.get? (j * 4 + 1) <;> rfl
theorem take_drop_getD (l : List Nat) (n k : Nat) (hk : k < 3) :
    ((l.drop n).take 3).getD k 0 = l.getD (n + k) 0 := by
  simp only [List.getD_eq_getElem?_getD, List.getElem?_take, if_pos hk, List.getElem?_drop]

theorem to565_congr (r1 g1 b1 r2 g2 b2 : Nat) (hr : r1 >>> 3 = r2 >>> 3)
    (hg : g1 >>> 2 = g2 >>> 2) (hb : b1 >>> 3 = b2 >>> 3) :
    to565 r1 g1 b1 = to565 r2 g2 b2 := by
  unfold to565
  rw [hr, hg, hb]

theorem memread_sim (pa pb : List Nat) (S o : Int) (hag : codes_agree pa pb)
    (h3 : o % 3 = 0) :
    (memread { start := pa, size := S, offset := o } 3 = none
        ∧ memread { start := pb, size := S, offset := o } 3 = none)
      ∨ ∃ (r : Int) (da db : List Nat) (o1 : Int),
          memread { start := pa, size := S, offset := o } 3
              = some (r, da, { start := pa, size := S, offset := o1 })
            ∧ memread { start := pb, size := S, offset := o } 3
              = some (r, db, { start := pb, size := S, offset := o1 })
            ∧ (r = 3 → o1 % 3 = 0
                ∧ to565 (da.getD 0 0) (da.getD 1 0) (da.getD 2 0)
                  = to565 (db.getD 0 0) (db.getD 1 0) (db.getD 2 0)) := by
  obtain ⟨hlen, hval⟩ := hag
  have hl : memread_len { start := pa, size := S, offset := o } 3
      = memread_len { start := pb, size := S, offset := o } 3 := rfl
  unfold memread
  simp only
  by_cases h1 : o ≥ S
  · rw [if_pos h1, if_pos h1]
    exact Or.inr ⟨0, [], [], o, rfl, rfl, fun h => absurd h (by decide)⟩
  · rw [if_neg h1, if_neg h1, ← hl]
    by_cases h2 : ¬ (in_int (3 + o)
        ∧ in_int (memread_len { start := pa, size := S, offset := o } 3)
        ∧ in_int (o + memread_len { start := pa, size := S, offset := o } 3))
    · rw [if_pos h2, if_pos h2]
      exact Or.inl ⟨rfl, rfl⟩
    · rw [if_neg h2, if_neg h2]
      unfold load_bytes
      by_cases h4 : 0 ≤ o ∧ 0 ≤ memread_len { start := pa, size := S, offset := o } 3
          ∧ o + memread_len { start := pa, size := S, offset := o } 3 ≤ (pa.length : Int)
      · rw [if_pos h4, if_pos (by rw [← hlen]; exact h4)]
        simp only
        refine Or.inr ⟨_, _, _, _, rfl, rfl, ?_⟩
        intro hr
        rw [hr] at h4 ⊢
        obtain ⟨ho0, _, hend⟩ := h4
        obtain ⟨n, rfl⟩ := Int.eq_ofNat_of_zero_le ho0
        have hn : n % 3 = 0 := by omega
        refine ⟨by omega, ?_⟩
        have e3 : (3 : Int).toNat = 3 := rfl
        simp only [Int.toNat_ofNat, e3]
        rw [take_drop_getD pa n 0 (by decide), take_drop_getD pa n 1 (by decide),
          take_drop_getD pa n 2 (by decide), take_drop_getD pb n 0 (by decide),
          take_drop_getD pb n 1 (by decide), take_drop_getD pb n 2 (by decide)]
        have v0 := hval (n + 0) (by omega)
        have v1 := hval (n + 1) (by omega)
        have v2 := hval (n + 2) (by omega)
        have s0 : shift3 (n + 0) = 3 := by unfold shift3; rw [if_neg (by omega)]
        have s1 : shift3 (n + 1) = 2 := by unfold shift3; rw [if_pos (by omega)]
        have s2 : shift3 (n + 2) = 3 := by unfold shift3; rw [if_neg (by omega)]
        rw [s0] at v0
        rw [s1] at v1
        rw [s2] at v2
        exact to565_congr _ _ _ _ _ _ v0 v1 v2
      · rw [if_neg h4, if_neg (by rw [← hlen]; exact h4)]
        exact Or.inl ⟨rfl, rfl⟩

theorem convert_to_rle_loop_sim (fuel : Nat) :
    ∀ (pa pb : List Nat) (S o : Int) (outfd : memblk) (last count total : Nat),
      codes_agree pa pb → o % 3 = 0 →
      (convert_to_rle_loop fuel { start := pa, size := S, offset := o } outfd last count
          total).map (fun res => res.2)
        = (convert_to_rle_loop fuel { start := pb, size := S, offset := o } outfd last count
          total).map (fun res => res.2) := by
  induction fuel with
  | zero =>
    intro pa pb S o outfd last count total _ _
    simp [convert_to_rle_loop]
  | succ fuel ih =>
    intro pa pb S o outfd last count total hag h3
    unfold convert_to_rle_loop
    rcases memread_sim pa pb S o hag h3 with ⟨ha, hb⟩ | ⟨r, da, db, o1, ha, hb, hr⟩
    · rw [ha, hb]
    · rw [ha, hb]
      simp only
      by_cases hr3 : r = 3
      · obtain ⟨ho1, hcol⟩ := hr hr3
        simp only [hr3, if_true, hcol]
        by_cases h0 : count = 0
        · simp only [h0, ne_eq, not_true_eq_false, if_false]
          exact ih pa pb S o1 outfd _ _ _ hag ho1
        · simp only [h0, ne_eq, not_false_eq_true, if_true]
          by_cases hm : to565 (db.getD 0 0) (db.getD 1 0) (db.getD 2 0) % 65536 = last
              ∧ ¬ count = 65535
          · simp only [hm, and_self, not_false_eq_true, if_true]
            exact ih pa pb S o1 outfd _ _ _ hag ho1
          · simp only [hm, if_false]
            cases write_record outfd count last with
            | none => rfl
            | some o2 =>
              simp only
              exact ih pa pb S o1 o2 _ _ _ hag ho1
      · simp only [hr3, if_false, Option.map_some']

theorem convert_to_rle_congr (ia ib : image) (hfa : ia.format = .IMG_RGB888)
    (hfb : ib.format = .IMG_RGB888) (hw : ia.width = ib.width) (hh : ia.height = ib.height)
    (hag : codes_agree ia.mem ib.mem) : convert_to_rle ia = convert_to_rle ib := by
  unfold convert_to_rle
  rw [if_neg (by simp [hfa]), if_neg (by simp [hfb])]
  simp only [memopen_image, hfa, hfb, memopen, hw, hh]
  have hsim := convert_to_rle_loop_sim ((to_int (ib.height * ib.width * 3)).toNat + 1)
    ia.mem ib.mem (to_int (ib.height * ib.width * 3)) 0 { start := [], size := 0, offset := 0 }
    0 0 0 hag (by decide)
  cases hla : convert_to_rle_loop ((to_int (ib.height * ib.width * 3)).toNat + 1)
      { start := ia.mem, size := to_int (ib.height * ib.width * 3), offset := 0 }
      { start := [], size := 0, offset := 0 } 0 0 0 with
  | none =>
    rw [hla] at hsim
    cases hlb : convert_to_rle_loop ((to_int (ib.height * ib.width * 3)).toNat + 1)
        { start := ib.mem, size := to_int (ib.height * ib.width * 3), offset := 0 }
        { start := [], size := 0, offset := 0 } 0 0 0 with
    | none => rfl
    | some rb => rw [hlb] at hsim; simp at hsim
  | some ra =>
    rw [hla] at hsim
    cases hlb : convert_to_rle_loop ((to_int (ib.height * ib.width * 3)).toNat + 1)
        { start := ib.mem, size := to_int (ib.height * ib.width * 3), offset := 0 }
        { start := [], size := 0, offset := 0 } 0 0 0 with
    | none => rw [hlb] at hsim; simp at hsim
    | some rb =>
      rw [hlb] at hsim
      simp only [Option.map_some', Option.some.injEq] at hsim
      obtain ⟨ma, oa, la, ca, ta⟩ := ra
      obtain ⟨mb, ob, lb, cb, tb⟩ := rb
      simp only [Prod.mk.injEq] at hsim
      obtain ⟨h1, h2, h3, _⟩ := hsim
      subst h1 h2 h3
      rfl
theorem convert_to_rgb_spec (inp : image) (hf : inp.format = .IMG_RGBA8888)
    (hlen : inp.mem.length = 4 * (inp.width * inp.height))
    (hsize : 4 * (inp.width * inp.height) < 2147483648) :
    convert_to_rgb inp
      = some (some { mem := strip_alpha inp.mem, height := inp.height, width := inp.width,
                     format := .IMG_RGB888, error := 0, size := 0 }) := by
  have hmod : inp.width * inp.height % 4294967296 = inp.width * inp.height :=
    Nat.mod_eq_of_lt (by omega)
  have hmod3 : inp.width * inp.height * 3 % 4294967296 = inp.width * inp.height * 3 :=
    Nat.mod_eq_of_lt (by omega)
  have hloop := convert_to_rgb_loop_spec (inp.width * inp.height) [] inp.mem []
    (List.replicate (inp.width * inp.height * 3) 0) 0 rfl hlen rfl
    (by rw [List.length_replicate]; ring) (by omega)
  simp only [List.nil_append] at hloop
  unfold convert_to_rgb
  rw [if_neg (by simp [hf])]
  simp only [new_image, hmod, hmod3, hloop]

theorem rgba_agree_of_pixels (x y : List Nat) (n : Nat) (hx : x.length = 4 * n)
    (hy : y.length = 4 * n)
    (h : ∀ j, j < n →
      x.getD (4 * j) 0 >>> 3 = y.getD (4 * j) 0 >>> 3
        ∧ x.getD (4 * j + 1) 0 >>> 2 = y.getD (4 * j + 1) 0 >>> 2
        ∧ x.getD (4 * j + 2) 0 >>> 3 = y.getD (4 * j + 2) 0 >>> 3) :
    rgba_agree x y := by
  refine ⟨by omega, ?_⟩
  intro i hi hmod
  obtain ⟨h0, h1, h2⟩ := h (i / 4) (by omega)
  unfold shift4
  have hcases : i % 4 = 0 ∨ i % 4 = 1 ∨ i % 4 = 2 := by omega
  rcases hcases with hc | hc | hc
  · rw [if_neg (by omega)]
    have e : i = 4 * (i / 4) := by omega
    rw [e]
    exact h0
  · rw [if_pos hc]
    have e : i = 4 * (i / 4) + 1 := by omega
    rw [e]
    exact h1
  · rw [if_neg (by omega)]
    have e : i = 4 * (i / 4) + 2 := by omega
    rw [e]
    exact h2

/-- Claim C18: for any two RGBA8888 images of the same width and height, each holding
exactly `width * height` 4-byte pixels, whose pixels agree on the top 5 bits of red, the top
6 bits of green and the top 5 bits of blue, `convert_to_rle(convert_to_rgb(.))` gives the
same outcome, so the same RLE buffer of the same size; an RLE image is produced whenever
`4 * width * height < 2 ^ 31`. -/
theorem C18_independence_from_discarded_bits (a b : image)
    (hfa : a.format = .IMG_RGBA8888) (hfb : b.format = .IMG_RGBA8888)
    (hw : a.width = b.width) (hh : a.height = b.height)
    (hla : a.mem.length = 4 * (a.width * a.height))
    (hlb : b.mem.length = 4 * (b.width * b.height))
    (hbits : ∀ j, j < a.width * a.height →
      a.mem.getD (4 * j) 0 >>> 3 = b.mem.getD (4 * j) 0 >>> 3
        ∧ a.mem.getD (4 * j + 1) 0 >>> 2 = b.mem.getD (4 * j + 1) 0 >>> 2
        ∧ a.mem.getD (4 * j + 2) 0 >>> 3 = b.mem.getD (4 * j + 2) 0 >>> 3) :
    rgba_to_rle a = rgba_to_rle b
      ∧ (4 * (a.width * a.height) < 2147483648 →
          ∃ out, rgba_to_rle a = some (some out) ∧ rgba_to_rle b = some (some out)
            ∧ out.format = .IMG_RLE565 ∧ out.size = out.mem.length) := by
  have hin : rgba_agree a.mem b.mem :=
    rgba_agree_of_pixels a.mem b.mem (a.width * a.height) hla (by rw [hlb, hw, hh]) hbits
  have heq : rgba_to_rle a = rgba_to_rle b := by
    unfold rgba_to_rle convert_to_rgb
    rw [if_neg (by simp [hfa]), if_neg (by simp [hfb])]
    simp only [hw, hh]
    rcases convert_to_rgb_loop_sim a.mem b.mem hin (b.width * b.height % 4294967296) 0
        (new_image b.width b.height .IMG_RGB888).mem
        (new_image b.width b.height .IMG_RGB888).mem (codes_agree_refl _) with
      ⟨h1, h2⟩ | ⟨ra, rb, h1, h2, hag⟩
    · rw [h1, h2]
    · rw [h1, h2]
      simp only
      exact convert_to_rle_congr _ _ rfl rfl rfl rfl hag
  refine ⟨heq, ?_⟩
  intro hsize
  have hrgb := convert_to_rgb_spec a hfa hla hsize
  have hrle := convert_to_rle_spec
    { mem := strip_alpha a.mem, height := a.height, width := a.width,
      format := .IMG_RGB888, error := 0, size := 0 } rfl
    (by simp only [strip_alpha_length, hla]; omega) (by simp only; omega)
    (runs_bound _ (by simp only [strip_alpha_length, hla]; omega) (by simp only; omega))
  have hout : rgba_to_rle a = some (some
      { mem := record_bytes (rle_runs (quantized (strip_alpha a.mem)) 0 0),
        height := 0, width := 0, format := .IMG_RLE565, error := 0,
        size := 4 * (rle_runs (quantized (strip_alpha a.mem)) 0 0).length }) := by
    unfold rgba_to_rle
    rw [hrgb]
    simp only
    exact hrle
  refine ⟨_, hout, by rw [← heq]; exact hout, rfl, ?_⟩
  simp only [record_bytes_length]

/-- Witness for C18: two 2 x 1 images that differ in alpha and low bits only encode to the
same two records. -/
theorem C18_independence_from_discarded_bits_witness :
    sample_rgba.mem ≠ sample_rgba_low_bits.mem
      ∧ rgba_to_rle sample_rgba
          = some (some { mem := [1, 0, 163, 8, 1, 0, 135, 41], height := 0, width := 0,
                         format := .IMG_RLE565, error := 0, size := 8 })
      ∧ rgba_to_rle sample_rgba = rgba_to_rle sample_rgba_low_bits
      ∧ (4 * (sample_rgba.width * sample_rgba.height) < 2147483648 →
          ∃ out, rgba_to_rle sample_rgba = some (some out)
            ∧ rgba_to_rle sample_rgba_low_bits = some (some out)
            ∧ out.format = .IMG_RLE565 ∧ out.size = out.mem.length) :=
  ⟨by decide, by decide,
    C18_independence_from_discarded_bits sample_rgba sample_rgba_low_bits rfl rfl rfl rfl
      rfl rfl (by decide)⟩

/-! ## The reads of the encoder loop -/

/-- The loop with its reads recorded computes what `convert_to_rle_loop` computes, and is
undefined exactly where it is. -/
theorem convert_to_rle_traced_fst (fuel : Nat) :
    ∀ (m outfd : memblk) (last count total : Nat),
      (convert_to_rle_traced fuel m outfd last count total).map (fun x => x.1)
        = convert_to_rle_loop fuel m outfd last count total := by
  induction fuel with
  | zero =>
    intro m outfd last count total
    simp [convert_to_rle_traced, convert_to_rle_loop]
  | succ fuel ih =>
    intro m outfd last count total
    unfold convert_to_rle_traced convert_to_rle_loop
    cases memread m 3 with
    | none => rfl
    | some v =>
      obtain ⟨r, inb, m1⟩ := v
      simp only
      by_cases h3 : r = 3
      · simp only [h3, if_true]
        by_cases h0 : count = 0
        · simp only [h0, ne_eq, not_true_eq_false, if_false, Option.map_map]
          exact ih _ _ _ _ _
        · simp only [h0, ne_eq, not_false_eq_true, if_true]
          by_cases hm : to565 (inb.getD 0 0) (inb.getD 1 0) (inb.getD 2 0) % 65536 = last
              ∧ ¬ count = 65535
          · simp only [hm, and_self, not_false_eq_true, if_true, Option.map_map]
            exact ih _ _ _ _ _
          · simp only [hm, if_false]
            cases write_record outfd count last with
            | none => rfl
            | some o2 =>
              simp only [Option.map_map]
              exact ih _ _ _ _ _
      · simp only [h3, if_false, Option.map_some']

theorem traced_shape (fuel : Nat) :
    ∀ (rest pre : List Nat) (outfd : memblk) (last count total : Nat) (S : Int)
      (res : memblk × memblk × Nat × Nat × Nat) (tr : List (memblk × Int × Nat)),
      S = ((pre ++ rest).length : Int) → S ≤ 2147483647 →
      rest.length % 3 = 0 → count ≤ 65535 →
      convert_to_rle_traced fuel
          { start := pre ++ rest, size := S, offset := (pre.length : Int) }
          outfd last count total = some (res, tr) →
      tr.length = rest.length / 3 + 1
        ∧ ∀ (k : Nat) (e : memblk × Int × Nat), tr.get? k = some e →
            e.1 = { start := pre ++ rest, size := S,
                    offset := ((pre.length + 3 * k : Nat) : Int) }
              ∧ e.2.1 = (if k < rest.length / 3 then 3 else 0)
              ∧ e.2.2 ≤ 65535 := by
  induction fuel with
  | zero =>
    intro rest pre outfd last count total S res tr _ _ _ _ h
    simp [convert_to_rle_traced] at h
  | succ fuel ih =>
    intro rest pre outfd last count total S res tr hS hmax hmod hcount h
    match rest, hS, hmod, h with
    | [], hS, _, h =>
      unfold convert_to_rle_traced at h
      rw [memread_end _ _ _ (by simp at hS; omega)] at h
      simp only at h
      rw [if_neg (by decide)] at h
      simp only [Option.some.injEq, Prod.mk.injEq] at h
      obtain ⟨_, htr⟩ := h
      subst htr
      refine ⟨rfl, ?_⟩
      intro k e hk
      cases k with
      | zero =>
        simp only [List.get?_cons_zero, Option.some.injEq] at hk
        subst hk
        exact ⟨rfl, rfl, hcount⟩
      | succ k => simp at hk
    | [_], _, hmod, _ => simp at hmod
    | [_, _], _, hmod, _ => simp at hmod
    | r :: g :: b :: rest1, hS, hmod, h =>
      have hpre : pre ++ r :: g :: b :: rest1 = (pre ++ [r, g, b]) ++ rest1 := by simp
      have hmod1 : rest1.length % 3 = 0 := by
        simp only [List.length_cons] at hmod; omega
      have hS1 : S = (((pre ++ [r, g, b]) ++ rest1).length : Int) := by rw [← hpre]; exact hS
      have hdiv : (r :: g :: b :: rest1).length / 3 = rest1.length / 3 + 1 := by
        simp only [List.length_cons]; omega
      have key : ∀ (outfd1 : memblk) (last1 count1 total1 c0 : Nat),
          count1 ≤ 65535 → c0 ≤ 65535 →
          (convert_to_rle_traced fuel
              { start := pre ++ r :: g :: b :: rest1, size := S,
                offset := ((pre ++ [r, g, b]).length : Int) }
              outfd1 last1 count1 total1).map
            (fun x => (x.1, (({ start := pre ++ r :: g :: b :: rest1, size := S,
                                offset := (pre.length : Int) } : memblk), (3 : Int), c0)
                        :: x.2))
            = some (res, tr) →
          tr.length = (r :: g :: b :: rest1).length / 3 + 1
            ∧ ∀ (k : Nat) (e : memblk × Int × Nat), tr.get? k = some e →
                e.1 = { start := pre ++ r :: g :: b :: rest1, size := S,
                        offset := ((pre.length + 3 * k : Nat) : Int) }
                  ∧ e.2.1 = (if k < (r :: g :: b :: rest1).length / 3 then 3 else 0)
                  ∧ e.2.2 ≤ 65535 := by
        intro outfd1 last1 count1 total1 c0 hc1 hc0 hmap
        rw [Option.map_eq_some'] at hmap
        obtain ⟨⟨res1, tr1⟩, hx, hpair⟩ := hmap
        simp only [Prod.mk.injEq] at hpair
        obtain ⟨_, htr⟩ := hpair
        subst htr
        rw [hpre] at hx
        obtain ⟨hlen, hent⟩ :=
          ih rest1 (pre ++ [r, g, b]) outfd1 last1 count1 total1 S res1 tr1 hS1 hmax hmod1
            hc1 hx
        rw [← hpre] at hent
        refine ⟨?_, ?_⟩
        · simp only [List.length_cons, hlen]
          omega
        · intro k e hk
          cases k with
          | zero =>
            simp only [List.get?_cons_zero, Option.some.injEq] at hk
            subst hk
            refine ⟨rfl, ?_, hc0⟩
            rw [if_pos (by omega)]
          | succ k =>
            simp only [List.get?_cons_succ] at hk
            obtain ⟨h1, h2, h3⟩ := hent k e hk
            refine ⟨?_, ?_, h3⟩
            · rw [h1]
              congr 1
              simp only [List.length_append, List.length_cons, List.length_nil]
              push_cast
              ring
            · rw [h2, hdiv]
              by_cases hk1 : k < rest1.length / 3
              · rw [if_pos hk1, if_pos (by omega)]
              · rw [if_neg hk1, if_neg (by omega)]
      unfold convert_to_rle_traced at h
      rw [memread_pixel pre rest1 r g b S hS hmax] at h
      simp only [List.getD_cons_zero, List.getD_cons_succ, if_true] at h
      by_cases hc : count = 0
      · simp only [hc, ne_eq, not_true_eq_false, if_false] at h
        exact key _ _ 1 _ 1 (by omega) (by omega) h
      · simp only [hc, ne_eq, not_false_eq_true, if_true] at h
        by_cases hm : to565 r g b % 65536 = last ∧ ¬ count = 65535
        · simp only [hm, and_self, not_false_eq_true, if_true] at h
          exact key _ _ _ _ (count + 1) (by omega) (by omega) h
        · simp only [hm, if_false] at h
          cases hw : write_record outfd count last with
          | none => rw [hw] at h; simp at h
          | some o2 =>
            rw [hw] at h
            simp only at h
            exact key _ _ 1 _ 1 (by omega) (by omega) h
theorem write_record_overflow (p : List Nat) (S : Int) (count last : Nat)
    (hS : S = (p.length : Int)) (hb : ¬ S + 4 ≤ 2147483647) :
    write_record { start := p, size := S, offset := S } count last = none := by
  unfold write_record
  by_cases hb2 : S + 2 ≤ 2147483647
  · have h2 := memwrite_append p (le16 count) S 2 hS rfl (by push_cast; omega)
    push_cast at h2
    rw [h2]
    simp only
    rw [memwrite_overflow _ _ _ (by simp only [in_int]; omega)]
  · rw [memwrite_overflow _ _ _ (by simp only [in_int]; omega)]

/-- With a run in progress and no two adjacent colour codes equal, every pixel flushes a
record; once the records of the remaining pixels no longer fit in an `int`-sized stream
the loop is undefined. -/
theorem loop_overflow (fuel : Nat) :
    ∀ (rest pre outp : List Nat) (last count total : Nat) (S : Int),
      S = ((pre ++ rest).length : Int) → S ≤ 2147483647 →
      rest.length % 3 = 0 → count ≠ 0 →
      adjacent_differ (last :: quantized rest) →
      (outp.length : Int) ≤ 2147483647 →
      (outp.length : Int) + 4 * ((rest.length / 3 : Nat) : Int) > 2147483647 →
      convert_to_rle_loop fuel { start := pre ++ rest, size := S, offset := (pre.length : Int) }
          { start := outp, size := (outp.length : Int), offset := (outp.length : Int) }
          last count total
        = none := by
  induction fuel with
  | zero =>
    intro rest pre outp last count total S _ _ _ _ _ _ _
    simp [convert_to_rle_loop]
  | succ fuel ih =>
    intro rest pre outp last count total S hS hmax hmod hcount hadj hout hover
    match rest, hS, hmod, hadj, hover with
    | [], _, _, _, hover =>
      simp only [List.length_nil, Nat.zero_div, Nat.cast_zero] at hover
      omega
    | [_], _, hmod, _, _ => simp at hmod
    | [_, _], _, hmod, _, _ => simp at hmod
    | r :: g :: b :: rest1, hS, hmod, hadj, hover =>
      have hpre : pre ++ r :: g :: b :: rest1 = (pre ++ [r, g, b]) ++ rest1 := by simp
      have hmod1 : rest1.length % 3 = 0 := by
        simp only [List.length_cons] at hmod; omega
      have hS1 : S = (((pre ++ [r, g, b]) ++ rest1).length : Int) := by rw [← hpre]; exact hS
      have hdiv : (r :: g :: b :: rest1).length / 3 = rest1.length / 3 + 1 := by
        simp only [List.length_cons]; omega
      rw [hdiv] at hover
      push_cast at hover
      simp only [quantized] at hadj
      obtain ⟨hne, hadj1⟩ := hadj
      unfold convert_to_rle_loop
      rw [memread_pixel pre rest1 r g b S hS hmax]
      simp only [List.getD_cons_zero, List.getD_cons_succ, if_true]
      rw [if_pos hcount, if_neg (by
        rintro ⟨he, _⟩
        exact hne he.symm)]
      by_cases hb : (outp.length : Int) + 4 ≤ 2147483647
      · rw [write_record_append outp _ count last rfl hb]
        simp only
        have hlen : ((outp.length : Int) + 4)
            = ((outp ++ (le16 count ++ le16 last)).length : Int) := by
          simp [le16]
        rw [hlen, hpre]
        exact ih rest1 (pre ++ [r, g, b]) (outp ++ (le16 count ++ le16 last)) _ 1 _ S hS1
          hmax hmod1 (by decide) hadj1 (by rw [← hlen]; exact hb) (by rw [← hlen]; omega)
      · rw [write_record_overflow outp _ count last rfl hb]

theorem alternating_succ (n : Nat) :
    alternating (n + 1)
      = (if n % 2 = 0 then [255, 255, 255] else [0, 0, 0]) ++ alternating n := rfl

/-- The loop started on a stream whose first pixel opens a run and whose later pixels
all flush a record. -/
theorem loop_overflow_start (r g b : Nat) (rest : List Nat)
    (hmod : rest.length % 3 = 0)
    (hmax : ((r :: g :: b :: rest).length : Int) ≤ 2147483647)
    (hadj : adjacent_differ (to565 r g b % 65536 :: quantized rest))
    (hover : (4 : Int) * ((rest.length / 3 : Nat) : Int) > 2147483647) :
    convert_to_rle_loop (((r :: g :: b :: rest).length : Int).toNat + 1)
        (memopen (r :: g :: b :: rest) ((r :: g :: b :: rest).length : Int)) (memopen [] 0)
        0 0 0
      = none := by
  unfold convert_to_rle_loop
  simp only [memopen]
  have hrd := memread_pixel [] rest r g b ((r :: g :: b :: rest).length : Int) rfl hmax
  simp only [List.nil_append, List.length_nil, Nat.cast_zero] at hrd
  rw [hrd]
  simp only [List.getD_cons_zero, List.getD_cons_succ, if_true, ne_eq, not_true_eq_false,
    if_false]
  have hov := loop_overflow (((r :: g :: b :: rest).length : Int).toNat)
    rest [r, g, b] [] (to565 r g b % 65536) 1 0
    ((r :: g :: b :: rest).length : Int) rfl hmax hmod (by decide) hadj
    (by simp) (by simpa using hover)
  exact hov

/-- An image of `n + 1` alternating pixels with `3 * (n + 1) < 2 ^ 31 <= 4 * n`: the input
stream is exact and within `int`, the flush of record `2 ^ 29` overflows the `int` size of
the write stream inside the loop, and `convert_to_rle` is undefined. -/
theorem convert_to_rle_alternating_overflow (ini : image) (n : Nat)
    (hfmt : ini.format = .IMG_RGB888) (hmem : ini.mem = alternating (n + 1))
    (hwh : ini.width * ini.height = n + 1) (h3 : 3 * (n + 1) < 2147483648)
    (h4 : 2147483648 ≤ 4 * n) :
    memopen_image ini = some (memopen ini.mem (ini.mem.length : Int))
      ∧ convert_to_rle_loop ((ini.mem.length : Int).toNat + 1)
          (memopen ini.mem (ini.mem.length : Int)) (memopen [] 0) 0 0 0 = none
      ∧ convert_to_rle ini = none := by
  have hlen : ini.mem.length = 3 * (n + 1) := by rw [hmem, alternating_length]
  have hsz : to_int (ini.height * ini.width * 3) = (ini.mem.length : Int) := by
    rw [Nat.mul_comm ini.height, hwh, to_int_of_lt _ (by omega), hlen]
    push_cast; ring
  have hopen : memopen_image ini = some (memopen ini.mem (ini.mem.length : Int)) := by
    simp only [memopen_image, hfmt, hsz]
  have hdiv : 3 * n / 3 = n := by omega
  have hloop : convert_to_rle_loop ((ini.mem.length : Int).toNat + 1)
      (memopen ini.mem (ini.mem.length : Int)) (memopen [] 0) 0 0 0 = none := by
    have hd := alternating_differ (n + 1)
    rw [quantized_alternating] at hd
    rw [hmem, alternating_succ]
    by_cases hn : n % 2 = 0
    · rw [if_pos hn] at hd ⊢
      exact loop_overflow_start 255 255 255 (alternating n)
        (by rw [alternating_length]; omega)
        (by simp only [List.length_cons, alternating_length]; push_cast; omega)
        hd (by rw [alternating_length, hdiv]; omega)
    · rw [if_neg hn] at hd ⊢
      exact loop_overflow_start 0 0 0 (alternating n)
        (by rw [alternating_length]; omega)
        (by simp only [List.length_cons, alternating_length]; push_cast; omega)
        hd (by rw [alternating_length, hdiv]; omega)
  refine ⟨hopen, hloop, ?_⟩
  unfold convert_to_rle
  rw [if_neg (by simp [hfmt]), hopen]
  simp only
  have e : (memopen ini.mem (ini.mem.length : Int)).size = (ini.mem.length : Int) := rfl
  rw [e, hloop]

/-- Claim C20 (amended): for every RGB888 image with `4 * width * height < 2 ^ 31` and a
buffer of exactly `width * height * 3` bytes, the loop of `convert_to_rle` is defined and
stops, `convert_to_rle` returns an image, and the loop issues `width * height + 1` reads
`memread(m, in, 3)`.  Read number `k` is made on the input stream at `offset = 3 * k`, so
with `0 <= offset <= size` and `offset` a multiple of 3; for `k < width * height` it returns
3 with the in-bounds pixel `mem[3k .. 3k+3)`, the last one is made at `offset = size` and
returns 0, after which the loop stops; the truncating branch (`3 + offset > size` with
`offset < size`) is never taken, and every value computed for the counter is at most 65535,
so the `unsigned short` never wraps. -/
theorem C20_read_loop_safety (ini : image) (hfmt : ini.format = .IMG_RGB888)
    (hlen : ini.mem.length = 3 * (ini.width * ini.height))
    (hsize : 4 * (ini.width * ini.height) < 2147483648) :
    ∃ m res tr out, memopen_image ini = some m
      ∧ convert_to_rle_loop (m.size.toNat + 1) m (memopen [] 0) 0 0 0 = some res
      ∧ convert_to_rle_traced (m.size.toNat + 1) m (memopen [] 0) 0 0 0 = some (res, tr)
      ∧ convert_to_rle ini = some (some out)
      ∧ tr.length = ini.width * ini.height + 1
      ∧ ∀ (k : Nat) (e : memblk × Int × Nat), tr.get? k = some e →
          e.1.start = ini.mem ∧ e.1.size = (ini.mem.length : Int)
            ∧ e.1.offset = ((3 * k : Nat) : Int)
            ∧ 0 ≤ e.1.offset ∧ e.1.offset ≤ e.1.size
            ∧ (k < ini.width * ini.height →
                e.2.1 = 3 ∧ e.1.offset + 3 ≤ e.1.size
                  ∧ memread e.1 3
                      = some (3, (ini.mem.drop (3 * k)).take 3,
                          { start := ini.mem, size := (ini.mem.length : Int),
                            offset := ((3 * k : Nat) : Int) + 3 }))
            ∧ (¬ k < ini.width * ini.height →
                e.2.1 = 0 ∧ e.1.offset = e.1.size ∧ memread e.1 3 = some (0, [], e.1))
            ∧ (e.1.offset < e.1.size → ¬ (3 + e.1.offset > e.1.size))
            ∧ e.2.2 ≤ 65535 := by
  have hsz : to_int (ini.height * ini.width * 3) = (ini.mem.length : Int) := by
    rw [to_int_of_lt _ (by nlinarith), hlen]
    push_cast; ring
  have hout := runs_bound ini hlen hsize
  obtain ⟨m1, o1, l1, c1, t1, h1, _⟩ :=
    loop_spec ((ini.mem.length : Int).toNat + 1) ini.mem [] [] 0 0 0 (ini.mem.length : Int)
      (by simp) (by omega) (by omega) (by omega) (by simp only [List.length_nil]; omega)
  simp only [List.nil_append, List.length_nil, Nat.cast_zero] at h1
  have hfst := convert_to_rle_traced_fst ((ini.mem.length : Int).toNat + 1)
    { start := ini.mem, size := (ini.mem.length : Int), offset := 0 }
    { start := [], size := 0, offset := 0 } 0 0 0
  rw [h1] at hfst
  obtain ⟨x, hx, hx1⟩ := Option.map_eq_some'.mp hfst
  obtain ⟨res, tr⟩ := x
  simp only at hx1
  subst hx1
  have hshape := traced_shape ((ini.mem.length : Int).toNat + 1) ini.mem []
    { start := [], size := 0, offset := 0 } 0 0 0 (ini.mem.length : Int)
    (m1, o1, l1, c1, t1) tr (by simp) (by omega) (by omega) (by omega)
  simp only [List.nil_append, List.length_nil, Nat.cast_zero, Nat.zero_add] at hshape
  obtain ⟨hlen1, hent⟩ := hshape hx
  have hdiv : ini.mem.length / 3 = ini.width * ini.height := by omega
  refine ⟨memopen ini.mem (ini.mem.length : Int), (m1, o1, l1, c1, t1), tr, _, ?_, ?_, ?_,
    convert_to_rle_spec ini hfmt hlen (by omega) hout, ?_, ?_⟩
  · simp only [memopen_image, hfmt, hsz]
  · exact h1
  · exact hx
  · rw [hlen1, hdiv]
  · intro k e hk
    obtain ⟨h1, h2, h3⟩ := hent k e hk
    have hkle : k ≤ ini.width * ini.height := by
      have hlt : k < tr.length := by
        by_contra hge
        rw [List.get?_eq_none.mpr (by omega)] at hk
        simp at hk
      omega
    rw [hdiv] at h2
    rw [h1]
    refine ⟨rfl, rfl, rfl, by simp only; omega, by simp only; omega, ?_, ?_, ?_, h3⟩
    · intro hlt
      rw [if_pos hlt] at h2
      refine ⟨h2, by simp only; omega, ?_⟩
      rw [memread_in_range _ 3 (by simp only; omega) (by simp) (by omega)
        (by simp only; omega) (by simp only; omega) (by simp only; omega)]
      have e1 : (((3 * k : Nat) : Int)).toNat = 3 * k := Int.toNat_ofNat _
      have e2 : (3 : Int).toNat = 3 := rfl
      simp only [e1, e2]
    · intro hge
      rw [if_neg hge] at h2
      have hk : k = ini.width * ini.height := by omega
      refine ⟨h2, by simp only; omega, ?_⟩
      exact memread_end _ _ _ (by omega)
    · intro hlt
      simp only at hlt ⊢
      omega

/-- Witness for C20: the five reads of the encoder on the 2 x 2 sample image, at offsets
0, 3, 6, 9, 12, returning 3, 3, 3, 3, 0, with counter values 1, 2, 1, 2, 2. -/
theorem C20_read_loop_safety_witness :
    sample_rgb.format = .IMG_RGB888
      ∧ sample_rgb.mem.length = 3 * (sample_rgb.width * sample_rgb.height)
      ∧ 4 * (sample_rgb.width * sample_rgb.height) < 2147483648
      ∧ (convert_to_rle_traced 13 (memopen sample_rgb.mem 12) (memopen [] 0) 0 0 0).map
            (fun x => x.2.map (fun e => (e.1.offset, e.2)))
          = some [(0, 3, 1), (3, 3, 2), (6, 3, 1), (9, 3, 2), (12, 0, 2)]
      ∧ ∃ m res tr out, memopen_image sample_rgb = some m
          ∧ convert_to_rle_loop (m.size.toNat + 1) m (memopen [] 0) 0 0 0 = some res
          ∧ convert_to_rle_traced (m.size.toNat + 1) m (memopen [] 0) 0 0 0 = some (res, tr)
          ∧ convert_to_rle sample_rgb = some (some out)
          ∧ tr.length = sample_rgb.width * sample_rgb.height + 1 := by
  obtain ⟨m, res, tr, out, h1, h2, h3, h4, h5, _⟩ :=
    C20_read_loop_safety sample_rgb rfl rfl (by decide)
  exact ⟨rfl, rfl, by decide, by decide, m, res, tr, out, h1, h2, h3, h4, h5⟩

/-- Counterexample for C20 as stated: a 536870913 x 1 RGB888 image of alternating white
and black pixels has `width * height * 3 = 1610612739 < 2 ^ 31` and a buffer of exactly
that many bytes.  Every pixel after the first flushes a 4-byte record, so at pixel number
`2 ^ 29` the write stream holds `2 ^ 31 - 4` bytes and the second `memwrite` of the record
computes `2 + 2147483646` in `int` (line 149): the loop is undefined before its reads are
complete, no list of reads exists and `convert_to_rle` returns nothing. -/
theorem C20_counterexample :
    long_alternating_rgb.format = .IMG_RGB888
      ∧ long_alternating_rgb.mem.length
          = long_alternating_rgb.width * long_alternating_rgb.height * 3
      ∧ long_alternating_rgb.width * long_alternating_rgb.height * 3 = 1610612739
      ∧ long_alternating_rgb.width * long_alternating_rgb.height * 3 < 2147483648
      ∧ memopen_image long_alternating_rgb
          = some (memopen long_alternating_rgb.mem 1610612739)
      ∧ convert_to_rle_loop 1610612740 (memopen long_alternating_rgb.mem 1610612739)
          (memopen [] 0) 0 0 0 = none
      ∧ convert_to_rle_traced 1610612740 (memopen long_alternating_rgb.mem 1610612739)
          (memopen [] 0) 0 0 0 = none
      ∧ convert_to_rle long_alternating_rgb = none := by
  have hl : long_alternating_rgb.mem.length = 1610612739 := alternating_length 536870913
  obtain ⟨h1, h2, h3⟩ :=
    convert_to_rle_alternating_overflow long_alternating_rgb 536870912 rfl rfl
      (by decide) (by decide) (by decide)
  rw [hl] at h1 h2
  have e : ((1610612739 : Nat) : Int).toNat + 1 = 1610612740 := by decide
  rw [e] at h2
  have e1 : ((1610612739 : Nat) : Int) = 1610612739 := rfl
  rw [e1] at h1 h2
  have h4 := convert_to_rle_traced_fst 1610612740
    (memopen long_alternating_rgb.mem 1610612739) (memopen [] 0) 0 0 0
  rw [h2] at h4
  exact ⟨rfl, hl, by decide, by decide, h1, h2, Option.map_eq_none'.mp h4, h3⟩

end Png2Rle
